import Mathlib

/-!
Verification development for the knowledge-graph consolidation pipeline of the
ml-service (entity deduplication, co-occurrence relationship building, and
relationship classification).

The Python sources are shallowly embedded:
* Python float arithmetic is modelled exactly over the rationals; the single
  irrational operation (the square roots inside the cosine magnitude) is
  modelled over the reals.
* Python dicts (which preserve insertion order, and keep the original position
  of a key on value update) are modelled as association lists in insertion
  order.
* Python sets of chunk indices are modelled as Finset over the naturals.
* Raised exceptions are modelled with Except; external collaborators (the
  generative-model client) are modelled as oracle function parameters, where
  a none result stands for a raised exception.
-/

/-! ## Data model (schemas/extract.py) -/

inductive EntityType
  | PERSON | ORGANIZATION | CONCEPT | DATE | PAPER | LOCATION
deriving DecidableEq, Repr, Inhabited

inductive RelationshipCategory
  | cooccurrence | semantic | explicit
deriving DecidableEq, Repr, Inhabited

structure EntitySourceSnippet where
  docId : String
  snippet : String
  chunkIndex : ℕ
deriving DecidableEq, Repr, Inhabited

structure ExtractedEntity where
  name : String
  type : EntityType
  confidence : ℚ
  sources : List EntitySourceSnippet
  aliases : List String
deriving DecidableEq, Repr, Inhabited

structure ExtractedRelationship where
  sourceEntity : String
  targetEntity : String
  type : RelationshipCategory
  relationType : Option String
  weight : ℚ
  confidence : ℚ
  examples : List String
deriving DecidableEq, Repr, Inhabited

/-! ## Similarity toolkit (shared/utils/similarity.py) -/

/-- Characters kept by the normalization regex sub of a non-word,
non-whitespace character class (ASCII scope of the Python word class:
alphanumerics and the underscore, plus whitespace). -/
def isWordOrSpace (c : Char) : Bool := c.isAlphanum || c = '_' || c.isWhitespace

/-- Strip leading and trailing whitespace from a character list. -/
def trimChars (l : List Char) : List Char :=
  ((l.dropWhile Char.isWhitespace).reverse.dropWhile Char.isWhitespace).reverse

/-- normalize_text: lowercase, drop every character that is neither a word
character nor whitespace, then strip.  Texts are handled as character lists. -/
def normalize_text (s : String) : List Char :=
  trimChars ((s.toList.map Char.toLower).filter isWordOrSpace)

/-! SequenceMatcher (difflib), specialised to character sequences, as used by
string_similarity via its ratio.  The b2j index maps a character to the
ascending list of its positions in b, with the autojunk rule excluding
popular characters of long (length at least 200) second sequences. -/

/-- Ascending positions of character c in b. -/
def charIndices (b : List Char) (c : Char) : List ℕ :=
  (List.range b.length).filter (fun j => b.getD j ' ' = c)

/-- The autojunk rule of SequenceMatcher: for a second sequence of length at
least 200, characters occupying more than one percent of it are junk. -/
def isPopular (b : List Char) (c : Char) : Bool :=
  decide (200 ≤ b.length) && decide (b.length / 100 + 1 < b.count c)

/-- b2j lookup with popular (junk) characters removed. -/
def b2jGet (b : List Char) (c : Char) : List ℕ :=
  if isPopular b c then [] else charIndices b c

/-- Lookup in the inner j2len mapping, defaulting to 0 (a Python dict get). -/
def j2lenGet (m : List (ℕ × ℕ)) (j : ℕ) : ℕ :=
  match m.find? (fun p => p.1 = j) with
  | some p => p.2
  | none => 0

/-- Inner loop of find_longest_match over the position list of the current
character of a: positions below blo are skipped, the loop breaks at the first
position at or beyond bhi, and each surviving position j extends the run
ending at j-1 (a j of 0 has no predecessor, matching the Python lookup of the
key -1, which is never present).  State: (newj2len, besti, bestj, bestsize). -/
def scanJs (j2len : List (ℕ × ℕ)) (blo bhi i : ℕ) :
    List ℕ → List (ℕ × ℕ) × ℕ × ℕ × ℕ → List (ℕ × ℕ) × ℕ × ℕ × ℕ
  | [], st => st
  | j :: js, (newj2len, besti, bestj, bestsize) =>
    if j < blo then scanJs j2len blo bhi i js (newj2len, besti, bestj, bestsize)
    else if bhi ≤ j then (newj2len, besti, bestj, bestsize)
    else
      let k := (if j = 0 then 0 else j2lenGet j2len (j - 1)) + 1
      let m := (j, k) :: newj2len
      if bestsize < k then scanJs j2len blo bhi i js (m, i + 1 - k, j + 1 - k, k)
      else scanJs j2len blo bhi i js (m, besti, bestj, bestsize)

/-- Outer scan of find_longest_match over i in the half-open window. -/
def flmScan (a b : List Char) (alo ahi blo bhi : ℕ) : ℕ × ℕ × ℕ :=
  let st := (List.range' alo (ahi - alo)).foldl
    (fun (st : List (ℕ × ℕ) × ℕ × ℕ × ℕ) i =>
      let (j2len, besti, bestj, bestsize) := st
      scanJs j2len blo bhi i (b2jGet b (a.getD i ' ')) ([], besti, bestj, bestsize))
    ([], alo, blo, 0)
  st.2

/-- One while loop extending the best block backwards; the jf flag selects the
non-junk pass (false) or the junk pass (true).  Fuel bounds the walk. -/
def extendBack (a b : List Char) (jf : Bool) (alo blo : ℕ) :
    ℕ → ℕ × ℕ × ℕ → ℕ × ℕ × ℕ
  | 0, st => st
  | fuel + 1, (besti, bestj, bestsize) =>
    if alo < besti ∧ blo < bestj ∧ isPopular b (b.getD (bestj - 1) ' ') = jf ∧
        a.getD (besti - 1) ' ' = b.getD (bestj - 1) ' ' then
      extendBack a b jf alo blo fuel (besti - 1, bestj - 1, bestsize + 1)
    else (besti, bestj, bestsize)

/-- One while loop extending the best block forwards. -/
def extendFwd (a b : List Char) (jf : Bool) (ahi bhi : ℕ) :
    ℕ → ℕ × ℕ × ℕ → ℕ × ℕ × ℕ
  | 0, st => st
  | fuel + 1, (besti, bestj, bestsize) =>
    if besti + bestsize < ahi ∧ bestj + bestsize < bhi ∧
        isPopular b (b.getD (bestj + bestsize) ' ') = jf ∧
        a.getD (besti + bestsize) ' ' = b.getD (bestj + bestsize) ' ' then
      extendFwd a b jf ahi bhi fuel (besti, bestj, bestsize + 1)
    else (besti, bestj, bestsize)

/-- find_longest_match on the window: the dynamic scan followed by the four
extension loops (backwards and forwards, first over non-junk then junk). -/
def findLongestMatch (a b : List Char) (alo ahi blo bhi : ℕ) : ℕ × ℕ × ℕ :=
  let st := flmScan a b alo ahi blo bhi
  let st := extendBack a b false alo blo (st.1 + 1) st
  let st := extendFwd a b false ahi bhi (ahi + 1) st
  let st := extendBack a b true alo blo (st.1 + 1) st
  extendFwd a b true ahi bhi (ahi + 1) st

/-- Recursive collection of matching blocks.  The source keeps a LIFO queue of
windows and sorts the collected triples afterwards; since the blocks of the
left subwindow all precede the found block, which precedes the blocks of the
right subwindow, the in-order recursion below directly produces that sorted
list.  Fuel bounds the recursion depth (each recursion strictly shrinks the
window, so the initial fuel of the two lengths plus one suffices). -/
def matchingBlocksRec (a b : List Char) : ℕ → ℕ → ℕ → ℕ → ℕ → List (ℕ × ℕ × ℕ)
  | 0, _, _, _, _ => []
  | fuel + 1, alo, ahi, blo, bhi =>
    let t := findLongestMatch a b alo ahi blo bhi
    let i := t.1
    let j := t.2.1
    let k := t.2.2
    if k = 0 then []
    else
      (if alo < i ∧ blo < j then matchingBlocksRec a b fuel alo i blo j else []) ++
      [(i, j, k)] ++
      (if i + k < ahi ∧ j + k < bhi then matchingBlocksRec a b fuel (i + k) ahi (j + k) bhi
       else [])

/-- Merge adjacent blocks (the second phase of get_matching_blocks), carrying
the pending block (i1, j1, k1). -/
def mergeAdjacent : ℕ × ℕ × ℕ → List (ℕ × ℕ × ℕ) → List (ℕ × ℕ × ℕ)
  | (i1, j1, k1), [] => if k1 ≠ 0 then [(i1, j1, k1)] else []
  | (i1, j1, k1), (i2, j2, k2) :: rest =>
    if i1 + k1 = i2 ∧ j1 + k1 = j2 then mergeAdjacent (i1, j1, k1 + k2) rest
    else if k1 ≠ 0 then (i1, j1, k1) :: mergeAdjacent (i2, j2, k2) rest
    else mergeAdjacent (i2, j2, k2) rest

/-- get_matching_blocks: sorted collected blocks, adjacent ones merged, with
the terminating sentinel block appended. -/
def getMatchingBlocks (a b : List Char) : List (ℕ × ℕ × ℕ) :=
  let blocks := matchingBlocksRec a b (a.length + b.length + 1) 0 a.length 0 b.length
  mergeAdjacent (0, 0, 0) blocks ++ [(a.length, b.length, 0)]

/-- ratio: twice the total matched size over the total length (1.0 for two
empty sequences). -/
def ratioOf (a b : List Char) : ℚ :=
  let totalMatched := ((getMatchingBlocks a b).map (fun t => t.2.2)).sum
  if a.length + b.length ≠ 0 then
    2 * (totalMatched : ℚ) / ((a.length : ℚ) + (b.length : ℚ))
  else 1

/-- string_similarity: normalize both texts, then the SequenceMatcher ratio. -/
def string_similarity (text1 text2 : String) : ℚ :=
  ratioOf (normalize_text text1) (normalize_text text2)

/-! cosine_similarity -/

inductive SimilarityError
  | dimensionMismatch
  | emptyVector
deriving DecidableEq, Repr

/-- Sum of squares of a vector (the square of its magnitude); the magnitude
itself is the real square root of this rational. -/
def sumSq (v : List ℚ) : ℚ := (v.map (fun a => a * a)).sum

/-- Dot product of two vectors, pairing componentwise. -/
def dotProd (v1 v2 : List ℚ) : ℚ := ((v1.zip v2).map (fun p => p.1 * p.2)).sum

/-- cosine_similarity: dimension mismatch and empty vectors raise; a zero
magnitude on either side yields 0.0; otherwise the dot product over the
product of magnitudes.  A float magnitude of exactly zero is equivalent to a
zero sum of squares (sqrtMagnitude_eq_zero_iff below proves the equivalence
for the real-valued model), so the zero check is taken on the sums of
squares to keep the branch decidable. -/
noncomputable def cosine_similarity (vec1 vec2 : List ℚ) : Except SimilarityError ℝ :=
  if vec1.length ≠ vec2.length then .error .dimensionMismatch
  else if vec1.length = 0 then .error .emptyVector
  else if sumSq vec1 = 0 ∨ sumSq vec2 = 0 then .ok 0
  else .ok ((dotProd vec1 vec2 : ℚ) /
    (Real.sqrt (sumSq vec1) * Real.sqrt (sumSq vec2)))

/-- The justification of the zero-magnitude branch condition: the magnitude
(real square root of the sum of squares) vanishes exactly when the sum of
squares does. -/
theorem sqrtMagnitude_eq_zero_iff (v : List ℚ) :
    Real.sqrt (sumSq v) = 0 ↔ sumSq v = 0 := by
  have hnn : (0 : ℚ) ≤ sumSq v := by
    unfold sumSq
    induction v with
    | nil => simp
    | cons a t ih =>
      simp only [List.map_cons, List.sum_cons]
      nlinarith [mul_self_nonneg a]
  rw [Real.sqrt_eq_zero']
  constructor
  · intro h
    exact le_antisymm (by exact_mod_cast h) hnn
  · intro h
    rw [h]
    norm_num

/-! is_abbreviation -/

/-- Substring test on character lists (the Python in operator on strings). -/
def isSubstrOfChars (needle hay : List Char) : Bool :=
  (List.range (hay.length + 1)).any (fun k => needle.isPrefixOf (hay.drop k))

/-- Whitespace split discarding empty fragments (the Python argumentless
split). -/
def splitWords (l : List Char) : List (List Char) :=
  (List.splitOnP Char.isWhitespace l).filter (fun w => w ≠ [])

/-- is_abbreviation: too-long short forms are rejected; otherwise a substring
match or an initials match succeeds. -/
def is_abbreviation (short long : String) (max_length : ℕ) : Bool :=
  let norm_short := normalize_text short
  let norm_long := normalize_text long
  if max_length < norm_short.length then false
  else if isSubstrOfChars norm_short norm_long then true
  else
    let words := splitWords norm_long
    let initials := words.filterMap (fun w => w.head?)
    if 0 < words.length ∧ norm_short = initials then true
    else false

/-! ## Deduplication engine (organize/services/deduplication_engine.py) -/

/-- The semantic-similarity signal of should_merge: applies only when both
embeddings are present, at cosine threshold 0.90; a raised similarity error
is caught and the signal skipped. -/
noncomputable def cosineSignal (emb1 emb2 : Option (List ℚ)) : Bool :=
  match emb1, emb2 with
  | some v1, some v2 =>
    match cosine_similarity v1 v2 with
    | .ok cos_sim => if (90 : ℝ) / 100 ≤ cos_sim then true else false
    | .error _ => false
  | _, _ => false

/-- should_merge: the type gate precedes every similarity signal; then string
similarity at threshold 0.85, the cosine signal, then abbreviation detection
in both orderings. -/
noncomputable def should_merge (entity1 entity2 : ExtractedEntity)
    (emb1 emb2 : Option (List ℚ)) : Bool :=
  if entity1.type ≠ entity2.type then false
  else if 85 / 100 ≤ string_similarity entity1.name entity2.name then true
  else if cosineSignal emb1 emb2 then true
  else if is_abbreviation entity1.name entity2.name 5 ||
      is_abbreviation entity2.name entity1.name 5 then true
  else false

/-- Indices of the entity list grouped by type, groups in first-occurrence
order and indices ascending inside each group (insertion-ordered dict). -/
def typeGroups (entities : List ExtractedEntity) : List (EntityType × List ℕ) :=
  (List.range entities.length).foldl
    (fun groups i =>
      let t := (entities.getD i default).type
      if groups.any (fun g => g.1 = t) then
        groups.map (fun g => if g.1 = t then (g.1, g.2 ++ [i]) else g)
      else groups ++ [(t, [i])])
    []

/-- Key lookup in the merge map (merged-away index to canonical index). -/
def mmContains (mm : List (ℕ × ℕ)) (i : ℕ) : Bool := mm.any (fun p => p.1 = i)

/-- Inner pair loop: compare the fixed canonical candidate idx_i against every
later index of its type group, mapping unmerged matches into idx_i. -/
noncomputable def mergeInner (entities : List ExtractedEntity)
    (embeddings : List (Option (List ℚ))) (idx_i : ℕ) (rest : List ℕ)
    (mm : List (ℕ × ℕ)) : List (ℕ × ℕ) :=
  rest.foldl
    (fun mm idx_j =>
      if mmContains mm idx_j then mm
      else if should_merge (entities.getD idx_i default) (entities.getD idx_j default)
          (embeddings.getD idx_i none) (embeddings.getD idx_j none) then
        mm ++ [(idx_j, idx_i)]
      else mm)
    mm

/-- Pair loop over one type group: an index already merged away is skipped as
a comparison subject. -/
noncomputable def mergeGroup (entities : List ExtractedEntity)
    (embeddings : List (Option (List ℚ))) :
    List ℕ → List (ℕ × ℕ) → List (ℕ × ℕ)
  | [], mm => mm
  | idx_i :: rest, mm =>
    let mm := if mmContains mm idx_i then mm
      else mergeInner entities embeddings idx_i rest mm
    mergeGroup entities embeddings rest mm

/-- The merge map of the deduplication pass: all type groups processed in
order. -/
noncomputable def computeMergeMap (entities : List ExtractedEntity)
    (embeddings : List (Option (List ℚ))) : List (ℕ × ℕ) :=
  (typeGroups entities).foldl
    (fun mm g => mergeGroup entities embeddings g.2 mm) []

/-- Indices merged into canonical index i, in merge-map insertion order. -/
def mergedInto (mm : List (ℕ × ℕ)) (i : ℕ) : List ℕ :=
  (mm.filter (fun p => p.2 = i)).map (fun p => p.1)

/-- Append the sources of a merged entity, skipping snippets whose text is
already present (the snippet set is updated as sources are appended). -/
def appendSources (cur : List EntitySourceSnippet) (new : List EntitySourceSnippet) :
    List EntitySourceSnippet :=
  new.foldl
    (fun cur s => if cur.any (fun t => t.snippet = s.snippet) then cur else cur ++ [s])
    cur

/-- Append the aliases of a merged entity, skipping duplicates and the
canonical name. -/
def appendAliases (cur : List String) (canonicalName : String) (new : List String) :
    List String :=
  new.foldl
    (fun cur al => if ¬ cur.contains al ∧ al ≠ canonicalName then cur ++ [al] else cur)
    cur

/-- One step of the variant-merge loop: record the merged name as an alias,
merge sources deduplicating by snippet, collect the confidence, merge
pre-existing aliases.  The state carries the canonical under construction and
the collected confidence list. -/
def mergeVariantStep (entities : List ExtractedEntity)
    (acc : ExtractedEntity × List ℚ) (idx : ℕ) : ExtractedEntity × List ℚ :=
  let merged_entity := entities.getD idx default
  let can := acc.1
  let can := if merged_entity.name ≠ can.name ∧ ¬ can.aliases.contains merged_entity.name
    then { can with aliases := can.aliases ++ [merged_entity.name] } else can
  let can := { can with sources := appendSources can.sources merged_entity.sources }
  let confs := acc.2 ++ [merged_entity.confidence]
  let can := { can with aliases := appendAliases can.aliases can.name merged_entity.aliases }
  (can, confs)

/-- Build the canonical entity for an unmerged index i: fold the variant-merge
loop over the indices merged into i, then average the collected confidences. -/
def buildCanonical (entities : List ExtractedEntity) (mm : List (ℕ × ℕ)) (i : ℕ) :
    ExtractedEntity :=
  let entity := entities.getD i default
  let st := (mergedInto mm i).foldl (mergeVariantStep entities)
    (entity, [entity.confidence])
  { st.1 with confidence := st.2.sum / (st.2.length : ℚ) }

inductive DedupError
  | lengthMismatch
deriving DecidableEq, Repr

/-- deduplicate_entities: length-mismatched parallel lists raise; the empty
input yields the empty output; otherwise every index not merged away yields
its canonical entity, in index order (the processed set of the source is
threaded faithfully). -/
noncomputable def deduplicate_entities (entities : List ExtractedEntity)
    (embeddings : List (Option (List ℚ))) : Except DedupError (List ExtractedEntity) :=
  if entities.length ≠ embeddings.length then .error .lengthMismatch
  else if entities.length = 0 then .ok []
  else
    let mm := computeMergeMap entities embeddings
    let st := (List.range entities.length).foldl
      (fun (acc : List ExtractedEntity × List ℕ) i =>
        if mmContains mm i then acc
        else if acc.2.contains i then acc
        else (acc.1 ++ [buildCanonical entities mm i], acc.2 ++ [i]))
      ([], [])
    .ok st.1

/-! ## Entity merge stage (organize/services/entity_extractor.py, step 3 of
extract_entities_with_gemini: merging the tagger list with the model list) -/

/-- Confidence boost and source merge applied to an entry found by both lists:
plus 0.05 capped at 0.98, and the model sources appended except those whose
snippet text is already present among the existing sources (the snippet set
is computed once, before appending). -/
def mergeBoth (a b : ExtractedEntity) : ExtractedEntity :=
  { a with
    confidence := min (98 / 100) (a.confidence + 5 / 100),
    sources := a.sources ++
      b.sources.filter (fun s => ¬ (a.sources.map (fun t => t.snippet)).contains s.snippet) }

/-- Insert-or-update of the insertion-ordered dict keyed by entity name: an
existing key keeps its position and takes the new value. -/
def dictUpsert (l : List ExtractedEntity) (e : ExtractedEntity) : List ExtractedEntity :=
  if l.any (fun a => a.name = e.name) then
    l.map (fun a => if a.name = e.name then e else a)
  else l ++ [e]

/-- The merge of the two entity candidate lists: all tagger entities enter the
dict first; each model entity then either boosts the entry of its name or, if
new, is kept only at confidence at least 0.55. -/
def mergeEntityLists (spacyEntities geminiEntities : List ExtractedEntity) :
    List ExtractedEntity :=
  let base := spacyEntities.foldl dictUpsert []
  geminiEntities.foldl
    (fun acc b =>
      if acc.any (fun a => a.name = b.name) then
        acc.map (fun a => if a.name = b.name then mergeBoth a b else a)
      else if 55 / 100 ≤ b.confidence then acc ++ [b]
      else acc)
    base

/-- Proof view of the merge stage: the tagger part after the model entities
of P have been processed, each entry boosted exactly when P holds its name. -/
def mergedAView (A P : List ExtractedEntity) : List ExtractedEntity :=
  A.map (fun a =>
    match P.find? (fun b => b.name = a.name) with
    | some b => mergeBoth a b
    | none => a)

/-- Proof view of the merge stage: the model-only entities of P kept at the
confidence bar. -/
def keptBView (A P : List ExtractedEntity) : List ExtractedEntity :=
  P.filter (fun b =>
    !(A.any (fun a => a.name = b.name)) && decide (55 / 100 ≤ b.confidence))

/-! ## Relationship classifier (organize/services/relationship_classifier.py) -/

/-- find_entity_occurrences: entity name to the set of chunk indices of its
evidence sources, names in first-occurrence order, sets merged across entities
sharing a name. -/
def find_entity_occurrences (entities : List ExtractedEntity) :
    List (String × Finset ℕ) :=
  entities.foldl
    (fun occurrences entity =>
      let occurrences :=
        if occurrences.any (fun p => p.1 = entity.name) then occurrences
        else occurrences ++ [(entity.name, ∅)]
      occurrences.map (fun p =>
        if p.1 = entity.name then
          (p.1, entity.sources.foldl (fun s src => insert src.chunkIndex s) p.2)
        else p))
    []

/-- calculate_cooccurrence_weight: shared chunks over the smaller footprint,
0.0 for an empty side or an empty intersection, clamped to 1.0. -/
def calculate_cooccurrence_weight (chunks1 chunks2 : Finset ℕ) : ℚ :=
  if chunks1 = ∅ ∨ chunks2 = ∅ then 0
  else
    let shared := chunks1 ∩ chunks2
    if shared = ∅ then 0
    else min 1 ((shared.card : ℚ) / ((min chunks1.card chunks2.card : ℕ) : ℚ))

/-- Up to three example snippets for a kept pair, drawn from the shared chunk
indices (taken here in ascending order; the source iterates a Python set,
whose order is unspecified), each truncated to 200 characters with an
ellipsis. -/
def exampleSnippets (text_chunks : List String) (shared : Finset ℕ) : List String :=
  ((shared.sort (· ≤ ·)).take 3).filterMap (fun idx =>
    if idx < text_chunks.length then
      let snippet := text_chunks.getD idx ""
      some (if 200 < snippet.length then ⟨snippet.toList.take 197⟩ ++ "..." else snippet)
    else none)

/-- The relationship emitted for a pair of names meeting the weight bar. -/
def mkCoRel (text_chunks : List String) (name1 name2 : String)
    (chunks1 chunks2 : Finset ℕ) (weight : ℚ) : ExtractedRelationship :=
  { sourceEntity := name1
    targetEntity := name2
    type := .cooccurrence
    relationType := some "related_to"
    weight := weight
    confidence := 7 / 10
    examples := exampleSnippets text_chunks (chunks1 ∩ chunks2) }

/-- The inner pair loop of build_cooccurrence_relationships for a fixed first
name against every later name. -/
def buildPairsFor (text_chunks : List String)
    (min_weight : ℚ) (p1 : String × Finset ℕ) (rest : List (String × Finset ℕ)) :
    List ExtractedRelationship :=
  rest.filterMap (fun p2 =>
    let weight := calculate_cooccurrence_weight p1.2 p2.2
    if min_weight ≤ weight then some (mkCoRel text_chunks p1.1 p2.1 p1.2 p2.2 weight)
    else none)

/-- All unordered name pairs in list order. -/
def buildPairsLoop (text_chunks : List String)
    (min_weight : ℚ) : List (String × Finset ℕ) → List ExtractedRelationship
  | [] => []
  | p1 :: rest =>
    buildPairsFor text_chunks min_weight p1 rest ++
    buildPairsLoop text_chunks min_weight rest

/-- build_cooccurrence_relationships: the occurrence index, then every
unordered pair at or above the weight threshold. -/
def build_cooccurrence_relationships (text_chunks : List String)
    (entities : List ExtractedEntity) (min_weight : ℚ) : List ExtractedRelationship :=
  if entities = [] then []
  else
    buildPairsLoop text_chunks min_weight (find_entity_occurrences entities)

/-! Pattern classification.  A rule is a keyword list, an optional required
entity-type pair (a slot of none is a wildcard), and the resulting relation
type.  Entity types are compared in the source as their fixed label strings;
the comparison is modelled on the type values directly, which is equivalent
since the labelling is injective. -/

structure PatternRule where
  keywords : List String
  requirements : Option (Option EntityType × Option EntityType)
  relType : String

/-- The ordered pattern table of _classify_with_patterns. -/
def patternRules : List PatternRule :=
  [ ⟨["founded", "co-founded", "started", "established", "launched"], none, "founded"⟩,
    ⟨["ceo", "chief executive", "president of", "head of", "director of"],
      some (some .PERSON, some .ORGANIZATION), "ceo_of"⟩,
    ⟨["leads", "leading", "runs", "manages"],
      some (some .PERSON, some .ORGANIZATION), "leads"⟩,
    ⟨["works at", "employed by", "employee of", "working at"],
      some (some .PERSON, some .ORGANIZATION), "works_at"⟩,
    ⟨["joined", "hired by"], some (some .PERSON, some .ORGANIZATION), "works_at"⟩,
    ⟨["authored", "wrote", "published"], some (some .PERSON, some .PAPER), "authored"⟩,
    ⟨["created", "developed", "invented", "designed"], none, "created"⟩,
    ⟨["headquartered in", "based in", "headquarters in"],
      some (some .ORGANIZATION, some .LOCATION), "headquartered_in"⟩,
    ⟨["located in", "situated in", "in"], some (none, some .LOCATION), "located_in"⟩,
    ⟨["born in"], some (some .PERSON, some .LOCATION), "born_in"⟩,
    ⟨["lives in", "resides in"], some (some .PERSON, some .LOCATION), "lives_in"⟩,
    ⟨["collaborated with", "worked with", "partnered with"],
      some (some .PERSON, some .PERSON), "collaborated_with"⟩,
    ⟨["colleague"], some (some .PERSON, some .PERSON), "colleague_of"⟩,
    ⟨["acquired", "bought", "purchased"], some (some .ORGANIZATION, some .ORGANIZATION),
      "acquired_by"⟩,
    ⟨["part of", "subsidiary of", "division of"],
      some (some .ORGANIZATION, some .ORGANIZATION), "part_of"⟩ ]

/-- The type-pair validation of a rule with requirements, reached only when
both types are known: the pair matches directly, reversed, or slotwise where a
none slot matches anything and each slot may be met by either type. -/
def typeReqMatches (req : Option EntityType × Option EntityType)
    (source_type target_type : EntityType) : Bool :=
  let types : Option EntityType × Option EntityType := (some source_type, some target_type)
  (types = req) || (types = (req.2, req.1)) ||
  ((req.1 = none || types.1 = req.1 || types.2 = req.1) &&
   (req.2 = none || types.2 = req.2 || types.1 = req.2))

/-- Whether one rule fires on the lowercased example text: some keyword
occurs, and either the rule has no type requirements or both entity types
are known and the pair validates.  (In the source a keyword hit that fails
validation falls through to the next keyword and then the next rule, so a
rule fires exactly under this condition.) -/
def ruleFires (rule : PatternRule) (text : List Char)
    (source_type target_type : Option EntityType) : Bool :=
  rule.keywords.any (fun kw =>
    isSubstrOfChars kw.toList text &&
    (match rule.requirements with
     | none => true
     | some req =>
       match source_type, target_type with
       | some st, some tt => typeReqMatches req st tt
       | _, _ => false))

/-- _classify_with_patterns: examples joined by single spaces and lowercased,
then the first firing rule in table order wins. -/
def classify_with_patterns (examples : List String)
    (source_type target_type : Option EntityType) : Option String :=
  let text := (String.intercalate " " examples).toList.map Char.toLower
  patternRules.findSome? (fun rule =>
    if ruleFires rule text source_type target_type then some rule.relType else none)

/-- The entity-type lookup dict built by classify_relationships_with_llm from
the optional entity list (a dict comprehension: the last entity of a name
wins). -/
def entityTypeLookup (entities : Option (List ExtractedEntity)) (name : String) :
    Option EntityType :=
  match entities with
  | none => none
  | some es => ((es.reverse).find? (fun e => e.name = name)).map (fun e => e.type)

/-- The classification obtained for one relationship, if any: the pattern path
at fixed confidence 0.85, else the model oracle (an oracle result of none
models a raised exception, caught by the per-item handler). -/
def classificationOf (oracle : ExtractedRelationship → Option (String × ℚ))
    (entities : Option (List ExtractedEntity)) (rel : ExtractedRelationship) :
    Option (String × ℚ) :=
  match classify_with_patterns rel.examples
      (entityTypeLookup entities rel.sourceEntity)
      (entityTypeLookup entities rel.targetEntity) with
  | some pattern_type => some (pattern_type, 85 / 100)
  | none => oracle rel

/-- The loop of classify_relationships_with_llm, also recording the indices
after which the inter-call sleep runs.  Items below weight 0.5 pass through;
a classified item takes the returned type and the maximum of old and new
confidence, and sleeps unless it is the last item of the whole batch or the
delay is not positive; a raised model call leaves the item untouched and
skips the sleep. -/
def classifyLoop (oracle : ExtractedRelationship → Option (String × ℚ))
    (entities : Option (List ExtractedEntity)) (delay_ms : ℤ) (total : ℕ) :
    ℕ → List ExtractedRelationship → List ExtractedRelationship × List ℕ
  | _, [] => ([], [])
  | idx, rel :: rest =>
    let tail := classifyLoop oracle entities delay_ms total (idx + 1) rest
    if 1 / 2 ≤ rel.weight then
      match classificationOf oracle entities rel with
      | some (t, c) =>
        ({ rel with relationType := some t, confidence := max rel.confidence c } :: tail.1,
         (if idx < total - 1 ∧ 0 < delay_ms then [idx] else []) ++ tail.2)
      | none => (rel :: tail.1, tail.2)
    else (rel :: tail.1, tail.2)

/-- classify_relationships_with_llm with its sleep trace. -/
def classifyWithTrace (relationships : List ExtractedRelationship)
    (oracle : ExtractedRelationship → Option (String × ℚ))
    (entities : Option (List ExtractedEntity)) (delay_ms : ℤ) :
    List ExtractedRelationship × List ℕ :=
  classifyLoop oracle entities delay_ms relationships.length 0 relationships

/-- classify_relationships_with_llm: the enhanced relationship list. -/
def classify_relationships_with_llm (relationships : List ExtractedRelationship)
    (oracle : ExtractedRelationship → Option (String × ℚ))
    (entities : Option (List ExtractedEntity)) (delay_ms : ℤ) :
    List ExtractedRelationship :=
  (classifyWithTrace relationships oracle entities delay_ms).1

/-! ## Stage 5 of the extraction route (organize/routes.py): sort by weight
descending, classify the top 20, concatenate with the remainder. -/

/-- Stable insertion step for the descending-by-weight sort: an element stops
before the first element of strictly smaller weight, hence after all earlier
elements of equal weight. -/
def insertByWeightDesc (r : ExtractedRelationship) :
    List ExtractedRelationship → List ExtractedRelationship
  | [] => [r]
  | x :: xs => if x.weight ≤ r.weight then r :: x :: xs else x :: insertByWeightDesc r xs

/-- The stable descending sort by weight of the Python list sort (stable
sorts agree elementwise, so insertion sort reproduces it exactly). -/
def sortByWeightDesc (relationships : List ExtractedRelationship) :
    List ExtractedRelationship :=
  relationships.foldr insertByWeightDesc []

/-- Stage 5 of extract_graph: classification runs over the global top 20 by
descending weight; the classified list is concatenated with the untouched
remainder.  The classify call receives no entity list (its default of none),
the default delay of 500, and the classification oracle for whatever object
the route passes as the client. -/
def extractGraphStage5 (relationships : List ExtractedRelationship)
    (oracle : ExtractedRelationship → Option (String × ℚ)) :
    List ExtractedRelationship :=
  let sorted := sortByWeightDesc relationships
  let top_relationships := sorted.take 20
  let remaining_relationships := sorted.drop 20
  classify_relationships_with_llm top_relationships oracle none 500 ++
    remaining_relationships

/-! ## Concrete instances used in closed evaluations -/

/-- Entity named Apple typed PERSON. -/
def applePerson : ExtractedEntity :=
  { name := "Apple", type := .PERSON, confidence := 9 / 10, sources := [], aliases := [] }

/-- Entity named Apple typed CONCEPT. -/
def appleConcept : ExtractedEntity :=
  { name := "Apple", type := .CONCEPT, confidence := 9 / 10, sources := [], aliases := [] }

/-- The AI entity of the specification example. -/
def entAI : ExtractedEntity :=
  { name := "AI", type := .CONCEPT, confidence := 8 / 10, sources := [], aliases := [] }

/-- The A.I. entity of the specification example. -/
def entAI2 : ExtractedEntity :=
  { name := "A.I.", type := .CONCEPT, confidence := 9 / 10, sources := [], aliases := [] }

/-- Entity A with one evidence source in chunk 0. -/
def entA0 : ExtractedEntity :=
  { name := "A", type := .CONCEPT, confidence := 1 / 2,
    sources := [⟨"doc", "snippet a", 0⟩], aliases := [] }

/-- Entity B with one evidence source in chunk 0. -/
def entB0 : ExtractedEntity :=
  { name := "B", type := .CONCEPT, confidence := 1 / 2,
    sources := [⟨"doc", "snippet b", 0⟩], aliases := [] }

/-- A model-list AI entity sharing its name with entAI, carrying one
evidence source. -/
def entGemAI : ExtractedEntity :=
  { name := "AI", type := .CONCEPT, confidence := 9 / 10,
    sources := [⟨"doc", "model snippet", 0⟩], aliases := [] }

/-- A full-weight relationship whose example text contains a founding
keyword, so the pattern path classifies it. -/
def relFounded1 : ExtractedRelationship :=
  { sourceEntity := "a", targetEntity := "b", type := .cooccurrence,
    relationType := some "related_to", weight := 1, confidence := 7 / 10,
    examples := ["a founded b"] }

/-- A second pattern-classifiable full-weight relationship. -/
def relFounded2 : ExtractedRelationship :=
  { sourceEntity := "c", targetEntity := "d", type := .cooccurrence,
    relationType := some "related_to", weight := 1, confidence := 7 / 10,
    examples := ["c founded d"] }

/-- A low-weight relationship, below the classification bar. -/
def relLow : ExtractedRelationship :=
  { sourceEntity := "e", targetEntity := "f", type := .cooccurrence,
    relationType := some "related_to", weight := 1 / 4, confidence := 7 / 10,
    examples := [] }

/-! ## Supporting lemmas -/

/-- A sum of squares of rationals is nonnegative. -/
theorem sumSq_nonneg (v : List ℚ) : 0 ≤ sumSq v := by
  unfold sumSq
  induction v with
  | nil => simp
  | cons a t ih =>
    simp only [List.map_cons, List.sum_cons]
    nlinarith [mul_self_nonneg a]

/-- Cauchy-Schwarz for the componentwise dot product of rational lists. -/
theorem dotProd_sq_le (v1 v2 : List ℚ) :
    dotProd v1 v2 ^ 2 ≤ sumSq v1 * sumSq v2 := by
  induction v1 generalizing v2 with
  | nil =>
    simp [dotProd, sumSq]
  | cons a t1 ih =>
    cases v2 with
    | nil =>
      simp [dotProd, sumSq]
    | cons b t2 =>
      have ihd := ih t2
      have hS1 := sumSq_nonneg t1
      have hS2 := sumSq_nonneg t2
      have hd : dotProd (a :: t1) (b :: t2) = a * b + dotProd t1 t2 := by
        simp [dotProd]
      have hs1 : sumSq (a :: t1) = a * a + sumSq t1 := by simp [sumSq]
      have hs2 : sumSq (b :: t2) = b * b + sumSq t2 := by simp [sumSq]
      rw [hd, hs1, hs2]
      rcases eq_or_lt_of_le hS2 with h0 | hpos
      · have hD : dotProd t1 t2 = 0 := by
          have := ihd
          rw [← h0] at this
          nlinarith [sq_nonneg (dotProd t1 t2)]
        rw [hD, ← h0]
        nlinarith [mul_nonneg hS1 (mul_self_nonneg b)]
      · nlinarith [sq_nonneg (a * sumSq t2 - b * dotProd t1 t2),
          mul_nonneg (mul_self_nonneg b) (sub_nonneg.mpr ihd),
          mul_nonneg (le_of_lt hpos) (sub_nonneg.mpr ihd), hpos]

/-! ## Claim theorems -/

/-- C1: for every pair of entities whose types differ, should_merge returns
false regardless of their string similarity, cosine similarity of their
embeddings, or abbreviation relationship: no signal can cause a cross-type
merge. -/
theorem shouldMerge_type_gate (entity1 entity2 : ExtractedEntity)
    (emb1 emb2 : Option (List ℚ)) (h : entity1.type ≠ entity2.type) :
    should_merge entity1 entity2 emb1 emb2 = false := by
  rw [should_merge, if_pos h]

/-- C1 witness: two entities of identical name (string similarity 1) and
identical embeddings (cosine similarity 1), one a substring of the other
(abbreviation), still refuse to merge across PERSON and CONCEPT. -/
theorem shouldMerge_type_gate_witness :
    should_merge applePerson appleConcept (some [1]) (some [1]) = false :=
  shouldMerge_type_gate applePerson appleConcept (some [1]) (some [1]) (by decide)

/-- C7: deduplicate_entities raises a length-mismatch error whenever the
entity list and the embedding list have different lengths, and for two empty
input lists it returns an empty list rather than an error. -/
theorem dedup_error_spec (entities : List ExtractedEntity)
    (embeddings : List (Option (List ℚ))) :
    (entities.length ≠ embeddings.length →
      deduplicate_entities entities embeddings = .error .lengthMismatch) ∧
    deduplicate_entities ([] : List ExtractedEntity) [] = .ok [] := by
  constructor
  · intro h
    rw [deduplicate_entities]
    simp [h]
  · rw [deduplicate_entities]
    simp

/-- C7 witness: one entity against zero embeddings raises, and the error case
is reached by the theorem at that concrete input. -/
theorem dedup_error_spec_witness :
    deduplicate_entities [entAI] [] = .error .lengthMismatch :=
  (dedup_error_spec [entAI] []).1 (by decide)

/-- C6: cosine_similarity raises a dimension-mismatch error whenever the two
lengths differ, raises an empty-vector error whenever the vectors have length
0, returns exactly 0.0 whenever either vector has zero magnitude, and
otherwise returns the dot product over the product of magnitudes, a value in
the interval from -1 to 1. -/
theorem cosine_similarity_spec (vec1 vec2 : List ℚ) :
    (vec1.length ≠ vec2.length →
      cosine_similarity vec1 vec2 = .error .dimensionMismatch) ∧
    (vec1.length = vec2.length → vec1.length = 0 →
      cosine_similarity vec1 vec2 = .error .emptyVector) ∧
    (vec1.length = vec2.length → vec1.length ≠ 0 →
      (Real.sqrt (sumSq vec1) = 0 ∨ Real.sqrt (sumSq vec2) = 0) →
      cosine_similarity vec1 vec2 = .ok 0) ∧
    (vec1.length = vec2.length → vec1.length ≠ 0 →
      Real.sqrt (sumSq vec1) ≠ 0 → Real.sqrt (sumSq vec2) ≠ 0 →
      cosine_similarity vec1 vec2 =
        .ok ((dotProd vec1 vec2 : ℝ) /
          (Real.sqrt (sumSq vec1) * Real.sqrt (sumSq vec2))) ∧
      ∀ r : ℝ, cosine_similarity vec1 vec2 = .ok r → -1 ≤ r ∧ r ≤ 1) := by
  refine ⟨fun h => ?_, fun h h0 => ?_, fun h h0 hz => ?_, fun h h0 hz1 hz2 => ?_⟩
  · rw [cosine_similarity, if_pos h]
  · rw [cosine_similarity, if_neg (by simp [h]), if_pos h0]
  · have hz' : sumSq vec1 = 0 ∨ sumSq vec2 = 0 := by
      rcases hz with hz | hz
      · exact Or.inl ((sqrtMagnitude_eq_zero_iff vec1).mp hz)
      · exact Or.inr ((sqrtMagnitude_eq_zero_iff vec2).mp hz)
    rw [cosine_similarity, if_neg (by simp [h]), if_neg h0, if_pos hz']
  · have hs1 : sumSq vec1 ≠ 0 := fun hc => hz1 ((sqrtMagnitude_eq_zero_iff vec1).mpr hc)
    have hs2 : sumSq vec2 ≠ 0 := fun hc => hz2 ((sqrtMagnitude_eq_zero_iff vec2).mpr hc)
    have heq : cosine_similarity vec1 vec2 =
        .ok ((dotProd vec1 vec2 : ℝ) /
          (Real.sqrt (sumSq vec1) * Real.sqrt (sumSq vec2))) := by
      rw [cosine_similarity, if_neg (by simp [h]), if_neg h0,
        if_neg (by push_neg; exact ⟨hs1, hs2⟩)]
    refine ⟨heq, fun r hr => ?_⟩
    have hr' : r = (dotProd vec1 vec2 : ℝ) /
        (Real.sqrt (sumSq vec1) * Real.sqrt (sumSq vec2)) := by
      rw [heq] at hr
      exact (Except.ok.inj hr).symm
    have hp1 : (0 : ℝ) < ((sumSq vec1 : ℚ) : ℝ) := by
      have := sumSq_nonneg vec1
      have hne : (0 : ℚ) < sumSq vec1 := lt_of_le_of_ne this (Ne.symm hs1)
      exact_mod_cast hne
    have hp2 : (0 : ℝ) < ((sumSq vec2 : ℚ) : ℝ) := by
      have := sumSq_nonneg vec2
      have hne : (0 : ℚ) < sumSq vec2 := lt_of_le_of_ne this (Ne.symm hs2)
      exact_mod_cast hne
    have hm1 : 0 < Real.sqrt (sumSq vec1) := Real.sqrt_pos.mpr hp1
    have hm2 : 0 < Real.sqrt (sumSq vec2) := Real.sqrt_pos.mpr hp2
    have hmm : 0 < Real.sqrt (sumSq vec1) * Real.sqrt (sumSq vec2) :=
      mul_pos hm1 hm2
    have hcs : ((dotProd vec1 vec2 : ℚ) : ℝ) ^ 2 ≤
        ((sumSq vec1 : ℚ) : ℝ) * ((sumSq vec2 : ℚ) : ℝ) := by
      exact_mod_cast dotProd_sq_le vec1 vec2
    have hsq : (Real.sqrt (sumSq vec1) * Real.sqrt (sumSq vec2)) ^ 2 =
        ((sumSq vec1 : ℚ) : ℝ) * ((sumSq vec2 : ℚ) : ℝ) := by
      rw [mul_pow, Real.sq_sqrt hp1.le, Real.sq_sqrt hp2.le]
    have habs : |((dotProd vec1 vec2 : ℚ) : ℝ)| ≤
        Real.sqrt (sumSq vec1) * Real.sqrt (sumSq vec2) := by
      have h1 : |((dotProd vec1 vec2 : ℚ) : ℝ)| =
          Real.sqrt (((dotProd vec1 vec2 : ℚ) : ℝ) ^ 2) :=
        (Real.sqrt_sq_eq_abs _).symm
      have h2 : Real.sqrt (sumSq vec1) * Real.sqrt (sumSq vec2) =
          Real.sqrt ((Real.sqrt (sumSq vec1) * Real.sqrt (sumSq vec2)) ^ 2) :=
        (Real.sqrt_sq hmm.le).symm
      rw [h1, h2, hsq]
      exact Real.sqrt_le_sqrt hcs
    have hdiv : |r| ≤ 1 := by
      rw [hr', abs_div, abs_of_pos hmm]
      exact (div_le_one hmm).mpr habs
    exact abs_le.mp hdiv

/-- C6 witness: a concrete dimension mismatch raises, and a concrete nonzero
pair takes the dot-product-over-magnitudes branch of the theorem. -/
theorem cosine_similarity_spec_witness :
    cosine_similarity [1] [1, 2] = .error .dimensionMismatch ∧
    cosine_similarity [1, 0] [1, 0] =
      .ok ((dotProd [1, 0] [1, 0] : ℝ) /
        (Real.sqrt (sumSq [1, 0]) * Real.sqrt (sumSq [1, 0]))) := by
  have hz : Real.sqrt (sumSq [(1 : ℚ), 0]) ≠ 0 := by
    rw [Ne, sqrtMagnitude_eq_zero_iff]
    norm_num [sumSq]
  exact ⟨(cosine_similarity_spec [1] [1, 2]).1 (by decide),
    ((cosine_similarity_spec [1, 0] [1, 0]).2.2.2 rfl (by decide) hz hz).1⟩

/-- Every relationship emitted by the pair loop meets the weight threshold. -/
theorem buildPairsLoop_weight_ge (text_chunks : List String) (min_weight : ℚ) :
    ∀ ps rel, rel ∈ buildPairsLoop text_chunks min_weight ps → min_weight ≤ rel.weight := by
  intro ps
  induction ps with
  | nil =>
    intro rel h
    simp [buildPairsLoop] at h
  | cons p1 rest ih =>
    intro rel h
    rw [buildPairsLoop] at h
    rcases List.mem_append.mp h with h | h
    · simp only [buildPairsFor, List.mem_filterMap] at h
      obtain ⟨p2, _, hp⟩ := h
      split at hp
      · cases hp
        simpa [mkCoRel] using (by assumption : min_weight ≤
          calculate_cooccurrence_weight p1.2 p2.2)
      · cases hp
    · exact ih rel h

/-- C2: the co-occurrence weight is the shared-chunk count over the smaller
footprint, zero when either side or the intersection is empty (the clamp to
1.0 in the source never binds); the two example weights evaluate to 1.0 and
2/3; and the relationship builder emits, for any positive threshold, only
relationships at or above that threshold, so zero-weight pairs are dropped. -/
theorem cooccurrence_weight_spec :
    (∀ chunks1 chunks2 : Finset ℕ,
      calculate_cooccurrence_weight chunks1 chunks2 =
        if chunks1 = ∅ ∨ chunks2 = ∅ ∨ chunks1 ∩ chunks2 = ∅ then 0
        else ((chunks1 ∩ chunks2).card : ℚ) /
          ((min chunks1.card chunks2.card : ℕ) : ℚ)) ∧
    calculate_cooccurrence_weight {0, 1, 2, 3} {0} = 1 ∧
    calculate_cooccurrence_weight {0, 1, 2} {1, 2, 3, 4} = 2 / 3 ∧
    (∀ min_weight : ℚ, 0 < min_weight →
      ∀ (text_chunks : List String) (entities : List ExtractedEntity),
      ∀ rel ∈ build_cooccurrence_relationships text_chunks entities min_weight,
        min_weight ≤ rel.weight ∧ 0 < rel.weight) := by
  refine ⟨fun chunks1 chunks2 => ?_, ?_, ?_, fun min_weight hmw text_chunks entities rel hrel => ?_⟩
  · simp only [calculate_cooccurrence_weight]
    by_cases h1 : chunks1 = ∅ ∨ chunks2 = ∅
    · rw [if_pos h1, if_pos (by tauto)]
    · rw [if_neg h1]
      push_neg at h1
      by_cases h2 : chunks1 ∩ chunks2 = ∅
      · rw [if_pos h2, if_pos (by tauto)]
      · rw [if_neg h2, if_neg (by tauto)]
        have hc1 : 0 < chunks1.card := Finset.card_pos.mpr (Finset.nonempty_iff_ne_empty.mpr h1.1)
        have hc2 : 0 < chunks2.card := Finset.card_pos.mpr (Finset.nonempty_iff_ne_empty.mpr h1.2)
        have hmpos : 0 < min chunks1.card chunks2.card := lt_min hc1 hc2
        have hle : (chunks1 ∩ chunks2).card ≤ min chunks1.card chunks2.card :=
          le_min (Finset.card_le_card Finset.inter_subset_left)
            (Finset.card_le_card Finset.inter_subset_right)
        have hq : ((chunks1 ∩ chunks2).card : ℚ) /
            ((min chunks1.card chunks2.card : ℕ) : ℚ) ≤ 1 := by
          rw [div_le_one (by exact_mod_cast hmpos)]
          exact_mod_cast hle
        exact min_eq_right hq
  · rw [calculate_cooccurrence_weight]
    norm_num +decide
  · rw [calculate_cooccurrence_weight]
    norm_num +decide
  · have hge : min_weight ≤ rel.weight := by
      rw [build_cooccurrence_relationships] at hrel
      split at hrel
      · simp at hrel
      · exact buildPairsLoop_weight_ge text_chunks min_weight _ rel hrel
    exact ⟨hge, lt_of_lt_of_le hmw hge⟩

/-- Concrete builder run: two entities sharing chunk 0 yield one full-weight
relationship. -/
theorem build_two_entities_eval :
    build_cooccurrence_relationships ["chunk zero"] [entA0, entB0] (3 / 10) =
    [{ sourceEntity := "A", targetEntity := "B", type := .cooccurrence,
       relationType := some "related_to", weight := 1, confidence := 7 / 10,
       examples := ["chunk zero"] }] := by
  have hocc : find_entity_occurrences [entA0, entB0] = [("A", {0}), ("B", {0})] := by
    simp [find_entity_occurrences, entA0, entB0]
  rw [build_cooccurrence_relationships, if_neg (by simp), hocc]
  rw [buildPairsLoop, buildPairsLoop, buildPairsLoop]
  have hw : calculate_cooccurrence_weight {0} {0} = 1 := by
    rw [calculate_cooccurrence_weight]
    norm_num +decide
  norm_num +decide [buildPairsFor, List.filterMap_cons, List.filterMap_nil, hw, mkCoRel,
    exampleSnippets, Finset.inter_self, Finset.sort_singleton]

/-- C2 witness: at the default threshold 0.3 the concrete emitted
relationship of build_two_entities_eval meets the threshold, through the
theorem. -/
theorem cooccurrence_weight_spec_witness :
    0 < (3 / 10 : ℚ) ∧
    3 / 10 ≤ ((build_cooccurrence_relationships ["chunk zero"] [entA0, entB0] (3 / 10)).getD 0
      default).weight := by
  refine ⟨by norm_num, ?_⟩
  refine (cooccurrence_weight_spec.2.2.2 (3 / 10) (by norm_num) ["chunk zero"] [entA0, entB0]
    _ ?_).1
  rw [build_two_entities_eval]
  simp

/-- A rule carrying type requirements never fires when either entity type is
unknown. -/
theorem ruleFires_unknown_type (rule : PatternRule) (text : List Char)
    (st tt : Option EntityType) (hreq : rule.requirements ≠ none)
    (h : st = none ∨ tt = none) : ruleFires rule text st tt = false := by
  obtain ⟨req, hr⟩ := Option.ne_none_iff_exists'.mp hreq
  rw [ruleFires]
  rw [List.any_eq_false]
  intro kw _
  rcases h with h | h
  · subst h
    simp [hr]
  · subst h
    cases st <;> simp [hr]

/-- On a pair with an unknown type, the pattern scan coincides with the scan
restricted to the rules without type requirements. -/
theorem findSome_untyped_rules (rules : List PatternRule) (text : List Char)
    (st tt : Option EntityType) (h : st = none ∨ tt = none) :
    rules.findSome?
      (fun rule => if ruleFires rule text st tt then some rule.relType else none) =
    (rules.filter (fun rule => rule.requirements = none)).findSome?
      (fun rule => if ruleFires rule text st tt then some rule.relType else none) := by
  induction rules with
  | nil => rfl
  | cons r rest ih =>
    cases hreq : r.requirements with
    | none =>
      rw [List.filter_cons_of_pos (by simp [hreq]), List.findSome?_cons, List.findSome?_cons]
      cases hf : (if ruleFires r text st tt then some r.relType else none) with
      | none => exact ih
      | some v => rfl
    | some req =>
      have hfire : ruleFires r text st tt = false :=
        ruleFires_unknown_type r text st tt (by simp [hreq]) h
      rw [List.filter_cons_of_neg (by simp [hreq]), List.findSome?_cons, hfire]
      simpa using ih

/-- C10: in pattern classification, every rule carrying an entity-type
requirement is skipped whenever either entity type is unknown, even when a
keyword occurs and even when the requirement holds a wildcard slot; only
rules without type requirements can fire, and otherwise the pattern path
returns no match. -/
theorem pattern_type_gate (examples : List String)
    (source_type target_type : Option EntityType)
    (h : source_type = none ∨ target_type = none) :
    classify_with_patterns examples source_type target_type =
      (patternRules.filter (fun rule => rule.requirements = none)).findSome?
        (fun rule =>
          if ruleFires rule ((String.intercalate " " examples).toList.map Char.toLower)
              source_type target_type
          then some rule.relType else none) := by
  simp only [classify_with_patterns]
  exact findSome_untyped_rules patternRules _ source_type target_type h

/-- C10 witness: the example text contains the located_in keyword and the
target type is LOCATION, yet with the source type unknown the requirement
rule is skipped and no untyped rule matches, so the pattern path returns no
match. -/
theorem pattern_type_gate_witness :
    classify_with_patterns ["alice located in paris"] none (some .LOCATION) = none := by
  rw [pattern_type_gate ["alice located in paris"] none (some .LOCATION) (Or.inl rfl)]
  decide


/-- The default relationship sits below the classification bar. -/
theorem default_rel_weight : (default : ExtractedRelationship).weight = 0 := rfl

/-- Per-index description of the classification loop output: an item at or
above weight 0.5 whose classification succeeds takes the returned type and
the maximum of old and new confidence; every other item is returned
unchanged. -/
theorem classifyLoop_getD (oracle : ExtractedRelationship → Option (String × ℚ))
    (entities : Option (List ExtractedEntity)) (delay_ms : ℤ) (total : ℕ) :
    ∀ (rels : List ExtractedRelationship) (idx k : ℕ),
    ((classifyLoop oracle entities delay_ms total idx rels).1).getD k default =
      (let rel := rels.getD k default
       if 1 / 2 ≤ rel.weight then
         match classificationOf oracle entities rel with
         | some tc =>
           { rel with relationType := some tc.1, confidence := max rel.confidence tc.2 }
         | none => rel
       else rel) := by
  intro rels
  induction rels with
  | nil =>
    intro idx k
    have hw : ¬ (1 : ℚ) / 2 ≤ (default : ExtractedRelationship).weight := by
      rw [default_rel_weight]
      norm_num
    simp only [classifyLoop, List.getD_nil]
    rw [if_neg hw]
  | cons r rest ih =>
    intro idx k
    rw [classifyLoop]
    by_cases hw : (1 : ℚ) / 2 ≤ r.weight
    · rw [if_pos hw]
      cases hc : classificationOf oracle entities r with
      | some tc =>
        cases k with
        | zero =>
          simp only [List.getD_cons_zero]
          rw [if_pos hw, hc]
        | succ k => simpa only [List.getD_cons_succ] using ih (idx + 1) k
      | none =>
        cases k with
        | zero =>
          simp only [List.getD_cons_zero]
          rw [if_pos hw, hc]
        | succ k => simpa only [List.getD_cons_succ] using ih (idx + 1) k
    · rw [if_neg hw]
      cases k with
      | zero =>
        simp only [List.getD_cons_zero]
        rw [if_neg hw]
      | succ k => simpa only [List.getD_cons_succ] using ih (idx + 1) k

/-- The sleep trace of the classification loop: the loop sleeps exactly after
the successfully classified items that are not the last item of the batch,
whenever the delay is positive. -/
theorem classifyLoop_sleeps (oracle : ExtractedRelationship → Option (String × ℚ))
    (entities : Option (List ExtractedEntity)) (delay_ms : ℤ) (total : ℕ) :
    ∀ (rels : List ExtractedRelationship) (idx : ℕ),
    (classifyLoop oracle entities delay_ms total idx rels).2 =
      (List.range rels.length).filterMap (fun k =>
        if 1 / 2 ≤ (rels.getD k default).weight ∧
            (classificationOf oracle entities (rels.getD k default)).isSome ∧
            idx + k < total - 1 ∧ 0 < delay_ms
        then some (idx + k) else none) := by
  intro rels
  induction rels with
  | nil =>
    intro idx
    simp [classifyLoop]
  | cons r rest ih =>
    intro idx
    rw [classifyLoop]
    have hrange : List.range (r :: rest).length = 0 :: (List.range rest.length).map Nat.succ := by
      rw [List.length_cons, List.range_succ_eq_map]
    rw [hrange, List.filterMap_cons, List.filterMap_map]
    have htail : (List.filterMap
        ((fun k =>
          if 1 / 2 ≤ ((r :: rest).getD k default).weight ∧
              (classificationOf oracle entities ((r :: rest).getD k default)).isSome ∧
              idx + k < total - 1 ∧ 0 < delay_ms
          then some (idx + k) else none) ∘ Nat.succ) (List.range rest.length)) =
        (classifyLoop oracle entities delay_ms total (idx + 1) rest).2 := by
      rw [ih (idx + 1)]
      apply List.filterMap_congr
      intro k _
      have harith : idx + (k + 1) = idx + 1 + k := by omega
      simp only [Function.comp_apply, List.getD_cons_succ, harith]
    by_cases hw : (1 : ℚ) / 2 ≤ r.weight
    · rw [if_pos hw]
      have hw2 : (2 : ℚ)⁻¹ ≤ r.weight := by
        rw [← one_div]
        exact hw
      cases hc : classificationOf oracle entities r with
      | some tc =>
        have hcond : (1 / 2 ≤ ((r :: rest).getD 0 default).weight ∧
            (classificationOf oracle entities ((r :: rest).getD 0 default)).isSome ∧
            idx + 0 < total - 1 ∧ 0 < delay_ms) ↔ (idx < total - 1 ∧ 0 < delay_ms) := by
          simp [hw2, hc]
        by_cases hd : idx < total - 1 ∧ 0 < delay_ms
        · rw [if_pos hd, if_pos (hcond.mpr hd)]
          simp only [Nat.add_zero]
          rw [htail]
          rfl
        · rw [if_neg hd, if_neg (fun hcc => hd (hcond.mp hcc))]
          rw [htail]
          simp
      | none =>
        have hcond : ¬ (1 / 2 ≤ ((r :: rest).getD 0 default).weight ∧
            (classificationOf oracle entities ((r :: rest).getD 0 default)).isSome ∧
            idx + 0 < total - 1 ∧ 0 < delay_ms) := by
          simp [hc]
        rw [if_neg hcond, htail]
    · rw [if_neg hw]
      have hw2 : ¬ (2 : ℚ)⁻¹ ≤ r.weight := by
        rw [← one_div]
        exact hw
      have hcond : ¬ (1 / 2 ≤ ((r :: rest).getD 0 default).weight ∧
          (classificationOf oracle entities ((r :: rest).getD 0 default)).isSome ∧
          idx + 0 < total - 1 ∧ 0 < delay_ms) := by
        simp [hw2]
      rw [if_neg hcond, htail]

/-- C8: for every relationship processed by the classifier, the resulting
confidence equals the maximum of the prior confidence and the newly obtained
classification confidence, and classification never lowers a confidence. -/
theorem classification_confidence_max (relationships : List ExtractedRelationship)
    (oracle : ExtractedRelationship → Option (String × ℚ))
    (entities : Option (List ExtractedEntity)) (delay_ms : ℤ) (k : ℕ) :
    ((relationships.getD k default).confidence ≤
      ((classify_relationships_with_llm relationships oracle entities delay_ms).getD k
        default).confidence) ∧
    (∀ t c, 1 / 2 ≤ (relationships.getD k default).weight →
      classificationOf oracle entities (relationships.getD k default) = some (t, c) →
      ((classify_relationships_with_llm relationships oracle entities delay_ms).getD k
        default).confidence = max (relationships.getD k default).confidence c) := by
  rw [classify_relationships_with_llm, classifyWithTrace,
    classifyLoop_getD oracle entities delay_ms relationships.length relationships 0 k]
  constructor
  · by_cases hw : (1 : ℚ) / 2 ≤ (relationships.getD k default).weight
    · rw [if_pos hw]
      cases hc : classificationOf oracle entities (relationships.getD k default) with
      | some tc => simp [le_max_left]
      | none => simp
    · rw [if_neg hw]
  · intro t c hw hc
    rw [if_pos hw, hc]

/-- C8 witness: a pattern-classified full-weight relationship takes the
maximum of its prior confidence and the pattern confidence 0.85. -/
theorem classification_confidence_max_witness :
    (1 : ℚ) / 2 ≤ relFounded1.weight ∧
    ((classify_relationships_with_llm [relFounded1] (fun _ => none) none 500).getD 0
      default).confidence = max relFounded1.confidence (85 / 100) := by
  have hw : (1 : ℚ) / 2 ≤ ([relFounded1].getD 0 default).weight := by
    norm_num [relFounded1]
  have hc : classificationOf (fun _ => none) none ([relFounded1].getD 0 default) =
      some ("founded", 85 / 100) := rfl
  exact ⟨hw, (classification_confidence_max [relFounded1] (fun _ => none) none 500 0).2
    "founded" (85 / 100) hw hc⟩

/-- C9 (amended): the sleep schedule of classify_relationships_with_llm: with
a positive delay, the fixed inter-call delay runs after exactly the
successfully classified items (pattern path or model path alike) other than
the last item of the whole batch. -/
theorem delay_schedule (relationships : List ExtractedRelationship)
    (oracle : ExtractedRelationship → Option (String × ℚ))
    (entities : Option (List ExtractedEntity)) (delay_ms : ℤ) (h : 0 < delay_ms) :
    (classifyWithTrace relationships oracle entities delay_ms).2 =
      (List.range relationships.length).filterMap (fun k =>
        if 1 / 2 ≤ (relationships.getD k default).weight ∧
            (classificationOf oracle entities (relationships.getD k default)).isSome ∧
            k < relationships.length - 1
        then some k else none) := by
  rw [classifyWithTrace,
    classifyLoop_sleeps oracle entities delay_ms relationships.length relationships 0]
  apply List.filterMap_congr
  intro k _
  simp [h]

/-- C9 witness: on two full-weight pattern-classifiable relationships with an
always-raising model oracle, the schedule given by the theorem puts exactly
one sleep, after item 0. -/
theorem delay_schedule_witness :
    (0 : ℤ) < 500 ∧
    (classifyWithTrace [relFounded1, relFounded2] (fun _ => none) none 500).2 = [0] := by
  refine ⟨by norm_num, ?_⟩
  rw [delay_schedule [relFounded1, relFounded2] (fun _ => none) none 500 (by norm_num)]
  have h0 : classificationOf (fun _ => none) none ([relFounded1, relFounded2].getD 0 default) =
      some ("founded", 85 / 100) := rfl
  have h1 : classificationOf (fun _ => none) none ([relFounded1, relFounded2].getD 1 default) =
      some ("founded", 85 / 100) := rfl
  have hr : List.range ([relFounded1, relFounded2].length) = [0, 1] := by decide
  have hw0 : ([relFounded1, relFounded2].getD 0 default).weight = 1 := rfl
  have hw1 : ([relFounded1, relFounded2].getD 1 default).weight = 1 := rfl
  have hv0 : relFounded1.weight = 1 := rfl
  have hc0 : classificationOf (fun _ => none) none relFounded1 =
      some ("founded", 85 / 100) := rfl
  rw [hr]
  simp only [List.filterMap_cons, List.filterMap_nil]
  norm_num [hw0, hw1, h0, h1, hv0, hc0]

/-- C9 counterexample: the inter-call delay is not restricted to
model-fallback calls.  With an always-raising model oracle (no model call
ever classifies anything) the loop still sleeps after item 0, which was
classified by the pattern path, refuting the claim that the delay runs only
between model-fallback calls and never after a pattern-classified item. -/
theorem delay_after_pattern_item :
    (classifyWithTrace [relFounded1, relFounded2] (fun _ => none) none 500).2 = [0] ∧
    classify_with_patterns relFounded1.examples none none = some "founded" := by
  constructor
  · have h0 : classificationOf (fun _ => none) none relFounded1 =
        some ("founded", 85 / 100) := rfl
    have h1 : classificationOf (fun _ => none) none relFounded2 =
        some ("founded", 85 / 100) := rfl
    have hwr1 : (1 : ℚ) / 2 ≤ relFounded1.weight := by
      have hv : relFounded1.weight = 1 := rfl
      rw [hv]
      norm_num
    have hwr2 : (1 : ℚ) / 2 ≤ relFounded2.weight := by
      have hv : relFounded2.weight = 1 := rfl
      rw [hv]
      norm_num
    rw [classifyWithTrace, classifyLoop, if_pos hwr1, h0, classifyLoop, if_pos hwr2, h1,
      classifyLoop]
    norm_num
  · decide

/-- getD of a take, below the cut. -/
theorem getD_take_eq (l : List ExtractedRelationship) (n m : ℕ) (d : ExtractedRelationship)
    (h : m < n) : (l.take n).getD m d = l.getD m d := by
  rw [List.getD_eq_getElem?_getD, List.getD_eq_getElem?_getD, List.getElem?_take, if_pos h]

/-- getD of a drop, shifted. -/
theorem getD_drop_eq (l : List ExtractedRelationship) (i j : ℕ) (d : ExtractedRelationship) :
    (l.drop i).getD j d = l.getD (i + j) d := by
  rw [List.getD_eq_getElem?_getD, List.getD_eq_getElem?_getD, List.getElem?_drop]

/-- Insertion permutes. -/
theorem insertByWeightDesc_perm (r : ExtractedRelationship) (l : List ExtractedRelationship) :
    (insertByWeightDesc r l).Perm (r :: l) := by
  induction l with
  | nil => rfl
  | cons x xs ih =>
    rw [insertByWeightDesc]
    split
    · rfl
    · exact ((ih.cons x).trans (List.Perm.swap r x xs))

/-- The descending sort is a permutation of its input. -/
theorem sortByWeightDesc_perm (l : List ExtractedRelationship) :
    (sortByWeightDesc l).Perm l := by
  induction l with
  | nil => rfl
  | cons x xs ih =>
    rw [sortByWeightDesc, List.foldr_cons]
    exact (insertByWeightDesc_perm x _).trans (ih.cons x)

/-- Insertion preserves the descending order. -/
theorem insertByWeightDesc_sorted (r : ExtractedRelationship) (l : List ExtractedRelationship)
    (h : List.Pairwise (fun a b => b.weight ≤ a.weight) l) :
    List.Pairwise (fun a b => b.weight ≤ a.weight) (insertByWeightDesc r l) := by
  induction l with
  | nil => simp [insertByWeightDesc]
  | cons x xs ih =>
    rw [insertByWeightDesc]
    rcases List.pairwise_cons.mp h with ⟨hx, hxs⟩
    split
    · refine List.pairwise_cons.mpr ⟨?_, h⟩
      intro b hb
      rcases List.mem_cons.mp hb with hb | hb
      · subst hb
        assumption
      · exact le_trans (hx b hb) (by assumption)
    · refine List.pairwise_cons.mpr ⟨?_, ih hxs⟩
      intro b hb
      have hb2 : b ∈ r :: xs := (insertByWeightDesc_perm r xs).mem_iff.mp hb
      rcases List.mem_cons.mp hb2 with hb3 | hb3
      · subst hb3
        exact le_of_not_le (by assumption)
      · exact hx b hb3
    
/-- The sort output is descending by weight. -/
theorem sortByWeightDesc_sorted (l : List ExtractedRelationship) :
    List.Pairwise (fun a b => b.weight ≤ a.weight) (sortByWeightDesc l) := by
  induction l with
  | nil => simp [sortByWeightDesc]
  | cons x xs ih =>
    rw [sortByWeightDesc, List.foldr_cons]
    exact insertByWeightDesc_sorted x _ ih

/-- The classification loop preserves the list length. -/
theorem classifyLoop_length (oracle : ExtractedRelationship → Option (String × ℚ))
    (entities : Option (List ExtractedEntity)) (delay_ms : ℤ) (total : ℕ) :
    ∀ (rels : List ExtractedRelationship) (idx : ℕ),
    (classifyLoop oracle entities delay_ms total idx rels).1.length = rels.length := by
  intro rels
  induction rels with
  | nil =>
    intro idx
    rfl
  | cons r rest ih =>
    intro idx
    rw [classifyLoop]
    split
    · cases hc : classificationOf oracle entities r with
      | some tc => simpa using ih (idx + 1)
      | none => simpa using ih (idx + 1)
    · simpa using ih (idx + 1)

/-- C4: stage 5 sorts all candidate relationships by weight descending
(stably permuting the input), attempts classification only on items of the
top 20 whose weight is at least 0.5, passes every other relationship through
unchanged, and returns the classified top-K list concatenated with the
untouched remainder in that order; classification touches only the relation
type and the confidence. -/
theorem stage5_classification_scope (relationships : List ExtractedRelationship)
    (oracle : ExtractedRelationship → Option (String × ℚ)) :
    (sortByWeightDesc relationships).Perm relationships ∧
    List.Pairwise (fun a b => b.weight ≤ a.weight) (sortByWeightDesc relationships) ∧
    extractGraphStage5 relationships oracle =
      classify_relationships_with_llm ((sortByWeightDesc relationships).take 20) oracle
        none 500 ++ (sortByWeightDesc relationships).drop 20 ∧
    (extractGraphStage5 relationships oracle).length = relationships.length ∧
    (∀ k, 20 ≤ k →
      (extractGraphStage5 relationships oracle).getD k default =
        (sortByWeightDesc relationships).getD k default) ∧
    (∀ k, k < 20 → ((sortByWeightDesc relationships).getD k default).weight < 1 / 2 →
      (extractGraphStage5 relationships oracle).getD k default =
        (sortByWeightDesc relationships).getD k default) ∧
    (∀ k, ((extractGraphStage5 relationships oracle).getD k default).sourceEntity =
        ((sortByWeightDesc relationships).getD k default).sourceEntity ∧
      ((extractGraphStage5 relationships oracle).getD k default).targetEntity =
        ((sortByWeightDesc relationships).getD k default).targetEntity ∧
      ((extractGraphStage5 relationships oracle).getD k default).type =
        ((sortByWeightDesc relationships).getD k default).type ∧
      ((extractGraphStage5 relationships oracle).getD k default).weight =
        ((sortByWeightDesc relationships).getD k default).weight ∧
      ((extractGraphStage5 relationships oracle).getD k default).examples =
        ((sortByWeightDesc relationships).getD k default).examples) := by
  have hperm := sortByWeightDesc_perm relationships
  have hsl : (sortByWeightDesc relationships).length = relationships.length := hperm.length_eq
  have hstruct : extractGraphStage5 relationships oracle =
      classify_relationships_with_llm ((sortByWeightDesc relationships).take 20) oracle
        none 500 ++ (sortByWeightDesc relationships).drop 20 := rfl
  have hclen : (classify_relationships_with_llm ((sortByWeightDesc relationships).take 20)
      oracle none 500).length = ((sortByWeightDesc relationships).take 20).length := by
    rw [classify_relationships_with_llm, classifyWithTrace]
    exact classifyLoop_length oracle none 500 _ _ 0
  have hol : (extractGraphStage5 relationships oracle).length = relationships.length := by
    rw [hstruct, List.length_append, hclen, List.length_take, List.length_drop, hsl]
    omega
  have hin : ∀ k, k < 20 → k < relationships.length →
      (extractGraphStage5 relationships oracle).getD k default =
        (let rel := (sortByWeightDesc relationships).getD k default
         if 1 / 2 ≤ rel.weight then
           match classificationOf oracle none rel with
           | some tc =>
             { rel with relationType := some tc.1, confidence := max rel.confidence tc.2 }
           | none => rel
         else rel) := by
    intro k hk hkn
    rw [hstruct, List.getD_append _ _ _ _ (by rw [hclen, List.length_take]; omega)]
    rw [classify_relationships_with_llm, classifyWithTrace,
      classifyLoop_getD oracle none 500 _ _ 0 k, getD_take_eq _ _ _ _ hk]
  have hge : ∀ k, 20 ≤ k →
      (extractGraphStage5 relationships oracle).getD k default =
        (sortByWeightDesc relationships).getD k default := by
    intro k hk
    by_cases hkn : k < relationships.length
    · have hl20 : (classify_relationships_with_llm ((sortByWeightDesc relationships).take 20)
          oracle none 500).length = 20 := by
        rw [hclen, List.length_take]
        omega
      rw [hstruct, List.getD_append_right _ _ _ _ (by rw [hl20]; omega), hl20, getD_drop_eq]
      rw [show 20 + (k - 20) = k by omega]
    · rw [List.getD_eq_default _ _ (by omega : (extractGraphStage5 relationships
        oracle).length ≤ k),
        List.getD_eq_default _ _ (by omega : (sortByWeightDesc relationships).length ≤ k)]
  have hbelow : ∀ k, k < 20 →
      ((sortByWeightDesc relationships).getD k default).weight < 1 / 2 →
      (extractGraphStage5 relationships oracle).getD k default =
        (sortByWeightDesc relationships).getD k default := by
    intro k hk hw
    by_cases hkn : k < relationships.length
    · rw [hin k hk hkn]
      simp only []
      rw [if_neg (not_le.mpr hw)]
    · rw [List.getD_eq_default _ _ (by omega : (extractGraphStage5 relationships
        oracle).length ≤ k),
        List.getD_eq_default _ _ (by omega : (sortByWeightDesc relationships).length ≤ k)]
  have hfields : ∀ k,
      ((extractGraphStage5 relationships oracle).getD k default).sourceEntity =
        ((sortByWeightDesc relationships).getD k default).sourceEntity ∧
      ((extractGraphStage5 relationships oracle).getD k default).targetEntity =
        ((sortByWeightDesc relationships).getD k default).targetEntity ∧
      ((extractGraphStage5 relationships oracle).getD k default).type =
        ((sortByWeightDesc relationships).getD k default).type ∧
      ((extractGraphStage5 relationships oracle).getD k default).weight =
        ((sortByWeightDesc relationships).getD k default).weight ∧
      ((extractGraphStage5 relationships oracle).getD k default).examples =
        ((sortByWeightDesc relationships).getD k default).examples := by
    intro k
    by_cases hk20 : 20 ≤ k
    · rw [hge k hk20]
      exact ⟨rfl, rfl, rfl, rfl, rfl⟩
    · by_cases hkn : k < relationships.length
      · rw [hin k (by omega) hkn]
        simp only []
        split
        · cases hc : classificationOf oracle none
            ((sortByWeightDesc relationships).getD k default) with
          | some tc => exact ⟨rfl, rfl, rfl, rfl, rfl⟩
          | none => exact ⟨rfl, rfl, rfl, rfl, rfl⟩
        · exact ⟨rfl, rfl, rfl, rfl, rfl⟩
      · rw [List.getD_eq_default _ _ (by omega : (extractGraphStage5 relationships
          oracle).length ≤ k),
          List.getD_eq_default _ _ (by omega : (sortByWeightDesc relationships).length ≤ k)]
        exact ⟨rfl, rfl, rfl, rfl, rfl⟩
  exact ⟨hperm, sortByWeightDesc_sorted relationships, hstruct, hol, hge, hbelow, hfields⟩

/-- C4 witness: with a low-weight and a full-weight relationship, the sort
puts the full-weight one first and the low-weight one, below the
classification bar, passes through unchanged at its sorted position. -/
theorem stage5_classification_scope_witness :
    ((sortByWeightDesc [relLow, relFounded1]).getD 1 default).weight < 1 / 2 ∧
    (extractGraphStage5 [relLow, relFounded1] (fun _ => none)).getD 1 default =
      (sortByWeightDesc [relLow, relFounded1]).getD 1 default := by
  have h1 : relFounded1.weight = 1 := rfl
  have h2 : relLow.weight = 1 / 4 := rfl
  have hsort : sortByWeightDesc [relLow, relFounded1] = [relFounded1, relLow] := by
    rw [sortByWeightDesc, List.foldr_cons, List.foldr_cons, List.foldr_nil]
    rw [insertByWeightDesc, insertByWeightDesc, h1, h2]
    norm_num [insertByWeightDesc]
  have hw : ((sortByWeightDesc [relLow, relFounded1]).getD 1 default).weight < 1 / 2 := by
    rw [hsort]
    simp only [List.getD_cons_succ, List.getD_cons_zero, h2]
    norm_num
  exact ⟨hw, (stage5_classification_scope [relLow, relFounded1]
    (fun _ => none)).2.2.2.2.2.1 1 (by norm_num) hw⟩

/-- The boost of a both-lists entry keeps the name. -/
theorem mergeBoth_name (a b : ExtractedEntity) : (mergeBoth a b).name = a.name := rfl

/-- The per-entry update of the tagger part keeps the name. -/
theorem updP_name (P : List ExtractedEntity) (a : ExtractedEntity) :
    (match P.find? (fun b : ExtractedEntity => b.name = a.name) with
     | some b => mergeBoth a b
     | none => a).name = a.name := by
  cases P.find? (fun b : ExtractedEntity => b.name = a.name) <;> rfl

/-- The tagger part of the merge keeps the name list. -/
theorem mergedAView_name_map (A P : List ExtractedEntity) :
    (mergedAView A P).map (fun e => e.name) = A.map (fun e => e.name) := by
  rw [mergedAView, List.map_map]
  exact List.map_congr_left (fun a _ => updP_name P a)

/-- Inserting a name-distinct list into the dict appends it. -/
theorem dictUpsert_foldl (A : List ExtractedEntity) :
    ∀ acc : List ExtractedEntity,
    (∀ a ∈ A, ∀ x ∈ acc, x.name ≠ a.name) →
    ((acc ++ A).map (fun e => e.name)).Nodup →
    A.foldl dictUpsert acc = acc ++ A := by
  induction A with
  | nil =>
    intro acc _ _
    simp
  | cons a rest ih =>
    intro acc hdisj hnd
    have hnone : acc.any (fun x => x.name = a.name) = false := by
      rw [List.any_eq_false]
      intro x hx
      simp [hdisj a (List.mem_cons_self a rest) x hx]
    rw [List.foldl_cons, dictUpsert, hnone]
    simp only [Bool.false_eq_true, if_false]
    have hstep := ih (acc ++ [a]) ?_ ?_
    · rw [hstep, List.append_assoc]
      rfl
    · intro r hr x hx
      rcases List.mem_append.mp hx with hx | hx
      · exact hdisj r (List.mem_cons_of_mem a hr) x hx
      · have hxa : x = a := by simpa using hx
        rw [hxa]
        -- a.name ≠ r.name from nodup of names of acc ++ a :: rest
        have : ((acc ++ a :: rest).map (fun e => e.name)).Nodup := hnd
        rw [List.map_append, List.nodup_append] at this
        have hcons := this.2.1
        rw [List.map_cons, List.nodup_cons] at hcons
        intro hcc
        exact hcons.1 (hcc ▸ List.mem_map_of_mem (fun e => e.name) hr)
    · rw [show (acc ++ [a]) ++ rest = acc ++ a :: rest by simp]
      exact hnd

/-- Name search in the tagger part equals name search in the tagger list. -/
theorem mergedAView_any (A P : List ExtractedEntity) (nm : String) :
    (mergedAView A P).any (fun a => a.name = nm) = A.any (fun a => a.name = nm) := by
  induction A with
  | nil => rfl
  | cons a rest ih =>
    simp only [mergedAView, List.map_cons, List.any_cons] at ih ⊢
    rw [updP_name P a, ih]

/-- find? by a different name misses a singleton. -/
theorem find?_singleton_none (b : ExtractedEntity) (nm : String) (h : nm ≠ b.name) :
    List.find? (fun x : ExtractedEntity => x.name = nm) [b] = none := by
  have h2 : b.name ≠ nm := fun hcc => h hcc.symm
  simp only [List.find?_cons, List.find?_nil]
  simp [h2]

/-- One model entity advances the merge state by one processed entity. -/
theorem mergeStep_state (A P : List ExtractedEntity) (b : ExtractedEntity)
    (hbP : ∀ x ∈ P, x.name ≠ b.name) :
    (let acc := mergedAView A P ++ keptBView A P
     if acc.any (fun a => a.name = b.name) then
       acc.map (fun a => if a.name = b.name then mergeBoth a b else a)
     else if 55 / 100 ≤ b.confidence then acc ++ [b]
     else acc) =
    mergedAView A (P ++ [b]) ++ keptBView A (P ++ [b]) := by
  have hkeptP : ∀ x ∈ keptBView A P, x.name ≠ b.name := by
    intro x hx
    exact hbP x (List.mem_of_mem_filter hx)
  have hany : (mergedAView A P ++ keptBView A P).any (fun a => a.name = b.name) =
      A.any (fun a => a.name = b.name) := by
    rw [List.any_append]
    have h2 : (keptBView A P).any (fun a => a.name = b.name) = false := by
      rw [List.any_eq_false]
      intro x hx
      simp [hkeptP x hx]
    rw [h2, Bool.or_false, mergedAView_any]
  have hfindPb : ∀ a : ExtractedEntity, a.name = b.name →
      P.find? (fun x : ExtractedEntity => x.name = a.name) = none := by
    intro a ha
    rw [List.find?_eq_none]
    intro x hx
    simp [ha, hbP x hx]
  have hAkeep : ∀ a : ExtractedEntity, a.name ≠ b.name →
      (P ++ [b]).find? (fun x : ExtractedEntity => x.name = a.name) =
        P.find? (fun x : ExtractedEntity => x.name = a.name) := by
    intro a ha
    rw [List.find?_append, find?_singleton_none b a.name ha]
    cases hf : P.find? (fun x : ExtractedEntity => x.name = a.name) with
    | some v => rfl
    | none => rfl
  simp only []
  by_cases hbA : A.any (fun a => a.name = b.name) = true
  · rw [hany, hbA, if_pos rfl, List.map_append]
    have hApart : (mergedAView A P).map
        (fun a => if a.name = b.name then mergeBoth a b else a) =
        mergedAView A (P ++ [b]) := by
      rw [mergedAView, mergedAView, List.map_map]
      apply List.map_congr_left
      intro a _
      simp only [Function.comp_apply]
      by_cases ha : a.name = b.name
      · rw [hfindPb a ha]
        simp only []
        rw [if_pos ha]
        have h2 : (P ++ [b]).find? (fun x : ExtractedEntity => x.name = a.name) = some b := by
          rw [List.find?_append, hfindPb a ha]
          have h3 : b.name = a.name := ha.symm
          simp only [Option.none_or, List.find?_cons, List.find?_nil]
          simp [h3]
        rw [h2]
      · rw [hAkeep a ha]
        cases hf : P.find? (fun x : ExtractedEntity => x.name = a.name) with
        | some v =>
          simp only []
          rw [if_neg (by rw [mergeBoth_name]; exact ha)]
        | none =>
          simp only []
          rw [if_neg ha]
    have hBpart : (keptBView A P).map
        (fun a => if a.name = b.name then mergeBoth a b else a) =
        keptBView A (P ++ [b]) := by
      have h1 : (keptBView A P).map
          (fun a => if a.name = b.name then mergeBoth a b else a) = keptBView A P := by
        have hc := List.map_congr_left
          (f := fun a => if a.name = b.name then mergeBoth a b else a)
          (g := id) (l := keptBView A P)
          (fun x hx => by
            show (if x.name = b.name then mergeBoth x b else x) = id x
            rw [if_neg (hkeptP x hx)]
            rfl)
        rw [hc, List.map_id]
      have h2 : keptBView A (P ++ [b]) = keptBView A P := by
        rw [keptBView, keptBView, List.filter_append]
        have h3 : List.filter (fun x : ExtractedEntity =>
            !(A.any (fun a => a.name = x.name)) && decide (55 / 100 ≤ x.confidence)) [b] = [] := by
          simp only [List.filter]
          have hb2 : A.any (fun a => a.name = b.name) = true := hbA
          rw [hb2]
          rfl
        rw [h3, List.append_nil]
      rw [h1, h2]
    rw [hApart, hBpart]
  · have hfalse : A.any (fun a => a.name = b.name) = false := by
      rw [Bool.not_eq_true] at hbA
      exact hbA
    rw [hany, hfalse, if_neg (by simp)]
    have hnamesA : ∀ a ∈ A, a.name ≠ b.name := by
      rw [List.any_eq_false] at hfalse
      intro a haA
      have := hfalse a haA
      simpa using this
    have hApart : mergedAView A (P ++ [b]) = mergedAView A P := by
      rw [mergedAView, mergedAView]
      apply List.map_congr_left
      intro a haA
      rw [hAkeep a (hnamesA a haA)]
    have hBpart : keptBView A (P ++ [b]) =
        keptBView A P ++ (if 55 / 100 ≤ b.confidence then [b] else []) := by
      rw [keptBView, keptBView, List.filter_append]
      congr 1
      simp only [List.filter, hfalse]
      by_cases hconf : 55 / 100 ≤ b.confidence
      · rw [if_pos hconf]
        simp [hconf]
      · rw [if_neg hconf]
        simp [hconf]
    rw [hApart, hBpart]
    by_cases hconf : 55 / 100 ≤ b.confidence
    · rw [if_pos hconf, if_pos hconf, List.append_assoc]
    · rw [if_neg hconf, if_neg hconf, List.append_nil]

/-- The model-list fold of the merge, in closed form. -/
theorem mergeFold_closed (A : List ExtractedEntity) :
    ∀ (R P : List ExtractedEntity),
    (((P ++ R).map (fun e => e.name)).Nodup) →
    R.foldl
      (fun acc b =>
        if acc.any (fun a => a.name = b.name) then
          acc.map (fun a => if a.name = b.name then mergeBoth a b else a)
        else if 55 / 100 ≤ b.confidence then acc ++ [b]
        else acc)
      (mergedAView A P ++ keptBView A P) =
      mergedAView A (P ++ R) ++ keptBView A (P ++ R) := by
  intro R
  induction R with
  | nil =>
    intro P _
    simp
  | cons b R' ih =>
    intro P hnd
    have hbP : ∀ x ∈ P, x.name ≠ b.name := by
      intro x hx hcc
      rw [List.map_append, List.nodup_append] at hnd
      exact hnd.2.2 (List.mem_map_of_mem (fun e => e.name) hx)
        (by rw [List.map_cons]; exact hcc ▸ List.mem_cons_self _ _)
    rw [List.foldl_cons]
    have hstep := mergeStep_state A P b hbP
    simp only [] at hstep
    rw [hstep]
    have hnd2 : (((P ++ [b]) ++ R').map (fun e => e.name)).Nodup := by
      rw [show (P ++ [b]) ++ R' = P ++ b :: R' by simp]
      exact hnd
    have := ih (P ++ [b]) hnd2
    rw [this, show (P ++ [b]) ++ R' = P ++ b :: R' by simp]

/-- The merge stage in closed form: the updated tagger part followed by the
kept model-only part. -/
theorem mergeEntityLists_closed (A B : List ExtractedEntity)
    (hA : (A.map (fun e => e.name)).Nodup) (hB : (B.map (fun e => e.name)).Nodup) :
    mergeEntityLists A B = mergedAView A B ++ keptBView A B := by
  rw [mergeEntityLists]
  have hbase : A.foldl dictUpsert [] = A := by
    have := dictUpsert_foldl A [] (by intro a _ x hx; cases hx) (by simpa using hA)
    simpa using this
  rw [hbase]
  have h0 : A = mergedAView A [] ++ keptBView A [] := by
    simp [mergedAView, keptBView]
  conv_lhs => rw [h0]
  have := mergeFold_closed A B [] (by simpa using hB)
  simpa using this

/-- find? by name retrieves the unique entity of that name. -/
theorem find?_name_of_mem (B : List ExtractedEntity)
    (hB : (B.map (fun e => e.name)).Nodup) (b : ExtractedEntity) (hb : b ∈ B) :
    B.find? (fun x : ExtractedEntity => x.name = b.name) = some b := by
  induction B with
  | nil => cases hb
  | cons x rest ih =>
    rw [List.map_cons, List.nodup_cons] at hB
    rcases List.mem_cons.mp hb with hb1 | hb1
    · subst hb1
      simp [List.find?_cons]
    · have hxb : x.name ≠ b.name := by
        intro hcc
        exact hB.1 (hcc ▸ List.mem_map_of_mem (fun e => e.name) hb1)
      rw [List.find?_cons]
      have hd : decide (x.name = b.name) = false := by simp [hxb]
      rw [hd]
      exact ih hB.2 hb1

/-- C5: in the entity merge stage, every name present in both lists keeps the
tagger entry with confidence boosted by 0.05 capped at 0.98 and the model
evidence sources appended except those whose snippet text already exists
among the tagger sources; a name present only in the model list is included
exactly when its confidence is at least 0.55; and the output has exactly one
entity per distinct name. -/
theorem entity_merge_spec (A B : List ExtractedEntity)
    (hA : (A.map (fun e => e.name)).Nodup) (hB : (B.map (fun e => e.name)).Nodup) :
    (∀ a ∈ A, ∀ b ∈ B, a.name = b.name →
      { a with confidence := min (98 / 100) (a.confidence + 5 / 100),
               sources := a.sources ++ b.sources.filter
                 (fun s => ¬ (a.sources.map (fun t => t.snippet)).contains s.snippet) } ∈
        mergeEntityLists A B) ∧
    (∀ b ∈ B, (∀ a ∈ A, a.name ≠ b.name) →
      (b ∈ mergeEntityLists A B ↔ 55 / 100 ≤ b.confidence)) ∧
    ((mergeEntityLists A B).map (fun e => e.name)).Nodup := by
  rw [mergeEntityLists_closed A B hA hB]
  refine ⟨?_, ?_, ?_⟩
  · intro a haA b hbB hab
    have hfind : B.find? (fun x : ExtractedEntity => x.name = a.name) = some b := by
      rw [hab]
      exact find?_name_of_mem B hB b hbB
    apply List.mem_append_left
    rw [mergedAView]
    have : (match B.find? (fun x : ExtractedEntity => x.name = a.name) with
        | some v => mergeBoth a v
        | none => a) =
        { a with confidence := min (98 / 100) (a.confidence + 5 / 100),
                 sources := a.sources ++ b.sources.filter
                   (fun s => ¬ (a.sources.map (fun t => t.snippet)).contains s.snippet) } := by
      rw [hfind]
      rfl
    rw [← this]
    exact List.mem_map_of_mem _ haA
  · intro b hbB hnames
    constructor
    · intro hmem
      rcases List.mem_append.mp hmem with hmem | hmem
      · exfalso
        rcases List.mem_map.mp hmem with ⟨a, haA, hup⟩
        have : b.name = a.name := by
          rw [← hup]
          exact updP_name B a
        exact hnames a haA this.symm
      · have hpred := (List.mem_filter.mp hmem).2
        rcases Bool.and_eq_true_iff.mp hpred with ⟨_, hconf⟩
        exact of_decide_eq_true hconf
    · intro hconf
      apply List.mem_append_right
      rw [keptBView]
      apply List.mem_filter.mpr
      refine ⟨hbB, ?_⟩
      apply Bool.and_eq_true_iff.mpr
      constructor
      · have : A.any (fun a => a.name = b.name) = false := by
          rw [List.any_eq_false]
          intro a haA
          simp [hnames a haA]
        rw [this]
        rfl
      · exact decide_eq_true hconf
  · rw [List.map_append, List.nodup_append]
    refine ⟨by rw [mergedAView_name_map]; exact hA, ?_, ?_⟩
    · exact ((List.filter_sublist B).map (fun e => e.name)).nodup hB
    · intro nm hnm1 hnm2
      rw [mergedAView_name_map] at hnm1
      rcases List.mem_map.mp hnm2 with ⟨e, he, hen⟩
      rcases List.mem_filter.mp he with ⟨heB, hpred⟩
      rcases Bool.and_eq_true_iff.mp hpred with ⟨hnot, _⟩
      have hanyf : A.any (fun a => a.name = e.name) = false := by
        cases hq : A.any (fun a => a.name = e.name) with
        | false => rfl
        | true =>
          rw [hq] at hnot
          cases hnot
      rw [List.any_eq_false] at hanyf
      rcases List.mem_map.mp hnm1 with ⟨a, haA, han⟩
      have : a.name = e.name := by rw [han, hen]
      simpa [this] using hanyf a haA

/-- C5 witness: a name found by both lists is kept as the boosted tagger
entry with the model source appended, through the theorem at a concrete
pair of lists. -/
theorem entity_merge_spec_witness :
    ({ entAI with
       confidence := min (98 / 100) (entAI.confidence + 5 / 100),
       sources := entAI.sources ++ entGemAI.sources.filter
         (fun s => ¬ (entAI.sources.map (fun t => t.snippet)).contains s.snippet) } :
      ExtractedEntity) ∈
      mergeEntityLists [entAI] [entGemAI] :=
  (entity_merge_spec [entAI] [entGemAI] (by simp) (by simp)).1 entAI (by simp)
    entGemAI (by simp) rfl

/-- The inner merge loop keeps the merged-away keys distinct. -/
theorem mergeInner_keys_nodup (es : List ExtractedEntity) (embs : List (Option (List ℚ)))
    (ii : ℕ) :
    ∀ (rest : List ℕ) (mm : List (ℕ × ℕ)),
    ((mm.map (fun p => p.1)).Nodup) →
    (((mergeInner es embs ii rest mm).map (fun p => p.1)).Nodup) := by
  intro rest
  induction rest with
  | nil =>
    intro mm h
    exact h
  | cons j rest ih =>
    intro mm h
    rw [mergeInner, List.foldl_cons]
    by_cases hc : mmContains mm j = true
    · rw [if_pos hc]
      exact ih mm h
    · rw [if_neg hc]
      by_cases hs : should_merge (es.getD ii default) (es.getD j default)
          (embs.getD ii none) (embs.getD j none) = true
      · rw [if_pos hs]
        apply ih
        rw [List.map_append, List.nodup_append]
        refine ⟨h, List.nodup_singleton j, ?_⟩
        intro x hx hx2
        have hxj : x = j := by simpa using hx2
        rw [Bool.not_eq_true, mmContains, List.any_eq_false] at hc
        rcases List.mem_map.mp hx with ⟨p, hp, hpx⟩
        exact absurd (by simp [hpx, hxj] : p.1 = j) (by simpa using hc p hp)
      · rw [if_neg hs]
        exact ih mm h

/-- The group merge loop keeps the merged-away keys distinct. -/
theorem mergeGroup_keys_nodup (es : List ExtractedEntity) (embs : List (Option (List ℚ))) :
    ∀ (idcs : List ℕ) (mm : List (ℕ × ℕ)),
    ((mm.map (fun p => p.1)).Nodup) →
    (((mergeGroup es embs idcs mm).map (fun p => p.1)).Nodup) := by
  intro idcs
  induction idcs with
  | nil =>
    intro mm h
    exact h
  | cons i rest ih =>
    intro mm h
    rw [mergeGroup]
    by_cases hc : mmContains mm i = true
    · rw [if_pos hc]
      exact ih mm h
    · rw [if_neg hc]
      exact ih _ (mergeInner_keys_nodup es embs i rest mm h)

/-- The merge map holds each merged-away index at most once. -/
theorem computeMergeMap_keys_nodup (es : List ExtractedEntity)
    (embs : List (Option (List ℚ))) :
    (((computeMergeMap es embs).map (fun p => p.1)).Nodup) := by
  rw [computeMergeMap]
  have hgen : ∀ (gs : List (EntityType × List ℕ)) (mm : List (ℕ × ℕ)),
      ((mm.map (fun p => p.1)).Nodup) →
      (((gs.foldl (fun mm g => mergeGroup es embs g.2 mm) mm).map (fun p => p.1)).Nodup) := by
    intro gs
    induction gs with
    | nil =>
      intro mm h
      exact h
    | cons g rest ih =>
      intro mm h
      rw [List.foldl_cons]
      exact ih _ (mergeGroup_keys_nodup es embs g.2 mm h)
  exact hgen (typeGroups es) [] (by simp)

/-- The indices merged into a canonical form a sublist of the merge-map
keys. -/
theorem mergedInto_sublist_keys (mm : List (ℕ × ℕ)) (i : ℕ) :
    (mergedInto mm i).Sublist (mm.map (fun p => p.1)) := by
  rw [mergedInto]
  exact List.Sublist.map (fun p => p.1) (List.filter_sublist mm)

/-- The indices merged into one canonical are pairwise distinct. -/
theorem mergedInto_nodup (es : List ExtractedEntity) (embs : List (Option (List ℚ)))
    (i : ℕ) : (mergedInto (computeMergeMap es embs) i).Nodup :=
  (mergedInto_sublist_keys (computeMergeMap es embs) i).nodup
    (computeMergeMap_keys_nodup es embs)

/-- An unmerged index is not merged into itself. -/
theorem not_mem_mergedInto (mm : List (ℕ × ℕ)) (i : ℕ) (h : mmContains mm i = false) :
    i ∉ mergedInto mm i := by
  intro hmem
  have : i ∈ mm.map (fun p => p.1) :=
    (mergedInto_sublist_keys mm i).subset hmem
  rw [mmContains, List.any_eq_false] at h
  rcases List.mem_map.mp this with ⟨p, hp, hpi⟩
  exact absurd (by simp [hpi] : p.1 = i) (by simpa using h p hp)

/-- The variant-merge fold collects exactly the confidences of the merged
indices, in order, after the initial canonical confidence. -/
theorem variantFold_confs (es : List ExtractedEntity) :
    ∀ (l : List ℕ) (st : ExtractedEntity × List ℚ),
    ((l.foldl (mergeVariantStep es) st).2 =
      st.2 ++ l.map (fun j => (es.getD j default).confidence)) := by
  intro l
  induction l with
  | nil =>
    intro st
    simp
  | cons j rest ih =>
    intro st
    rw [List.foldl_cons, ih]
    rw [mergeVariantStep]
    simp

/-- The variant-merge fold never changes the canonical name. -/
theorem variantFold_name (es : List ExtractedEntity) :
    ∀ (l : List ℕ) (st : ExtractedEntity × List ℚ),
    ((l.foldl (mergeVariantStep es) st).1.name = st.1.name) := by
  intro l
  induction l with
  | nil =>
    intro st
    rfl
  | cons j rest ih =>
    intro st
    rw [List.foldl_cons, ih]
    rw [mergeVariantStep]
    split <;> rfl

/-- Merging aliases only appends. -/
theorem appendAliases_subset (canonicalName : String) :
    ∀ (new cur : List String), cur ⊆ appendAliases cur canonicalName new := by
  intro new
  induction new with
  | nil =>
    intro cur
    exact fun x hx => hx
  | cons al rest ih =>
    intro cur
    rw [appendAliases, List.foldl_cons]
    intro x hx
    have hsub := ih (if ¬ cur.contains al ∧ al ≠ canonicalName then cur ++ [al] else cur)
    rw [appendAliases] at hsub
    apply hsub
    split
    · exact List.mem_append_left _ hx
    · exact hx

/-- The variant-merge fold only appends aliases. -/
theorem variantFold_aliases_mono (es : List ExtractedEntity) :
    ∀ (l : List ℕ) (st : ExtractedEntity × List ℚ),
    st.1.aliases ⊆ ((l.foldl (mergeVariantStep es) st).1.aliases) := by
  intro l
  induction l with
  | nil =>
    intro st
    exact fun x hx => hx
  | cons j rest ih =>
    intro st
    rw [List.foldl_cons]
    intro x hx
    apply ih (mergeVariantStep es st j)
    rw [mergeVariantStep]
    simp only []
    apply appendAliases_subset
    split
    · exact List.mem_append_left _ hx
    · exact hx

/-- One variant-merge step leaves the merged name equal to the canonical
name or recorded among the aliases. -/
theorem mergeVariantStep_alias (es : List ExtractedEntity) (st : ExtractedEntity × List ℚ)
    (j : ℕ) :
    (es.getD j default).name = st.1.name ∨
      (es.getD j default).name ∈ (mergeVariantStep es st j).1.aliases := by
  rw [mergeVariantStep]
  simp only []
  by_cases h : (es.getD j default).name ≠ st.1.name ∧
      ¬ st.1.aliases.contains (es.getD j default).name
  · right
    apply appendAliases_subset
    rw [if_pos h]
    exact List.mem_append_right _ (List.mem_singleton_self _)
  · rw [not_and_or, not_not, not_not] at h
    rcases h with h | h
    · exact Or.inl h
    · right
      apply appendAliases_subset
      split
    
      · exact List.mem_append_left _ (by simpa using h)
      · simpa using h

/-- The canonical entity of an unmerged index: its confidence is the mean of
its own confidence and the confidences of the entities merged into it, each
original counted once over the index set; every merged name is the canonical
name or an alias. -/
theorem buildCanonical_spec (es : List ExtractedEntity) (mm : List (ℕ × ℕ)) (i : ℕ)
    (hnd : (mergedInto mm i).Nodup) (hni : i ∉ mergedInto mm i) :
    (buildCanonical es mm i).confidence =
      (∑ j in insert i (mergedInto mm i).toFinset, (es.getD j default).confidence) /
        ((insert i (mergedInto mm i).toFinset).card : ℚ) ∧
    ∀ j ∈ mergedInto mm i,
      (es.getD j default).name = (buildCanonical es mm i).name ∨
      (es.getD j default).name ∈ (buildCanonical es mm i).aliases := by
  constructor
  · rw [buildCanonical]
    simp only []
    rw [variantFold_confs]
    rw [Finset.sum_insert (by simpa using hni)]
    rw [List.sum_toFinset _ hnd]
    rw [Finset.card_insert_of_not_mem (by simpa using hni)]
    rw [List.toFinset_card_of_nodup hnd]
    simp only [List.sum_append, List.sum_cons, List.sum_nil, List.length_append,
      List.length_cons, List.length_nil, List.length_map]
    push_cast
    ring_nf
  · intro j hj
    have hname : (buildCanonical es mm i).name = (es.getD i default).name := by
      rw [buildCanonical]
      simp only []
      rw [variantFold_name]
    have halias : (buildCanonical es mm i).aliases =
        ((mergedInto mm i).foldl (mergeVariantStep es)
          (es.getD i default, [(es.getD i default).confidence])).1.aliases := by
      rw [buildCanonical]
    obtain ⟨l1, l2, hM⟩ := List.append_of_mem hj
    have hfold : (mergedInto mm i).foldl (mergeVariantStep es)
        (es.getD i default, [(es.getD i default).confidence]) =
        l2.foldl (mergeVariantStep es)
          (mergeVariantStep es
            (l1.foldl (mergeVariantStep es)
              (es.getD i default, [(es.getD i default).confidence])) j) := by
      rw [hM, List.foldl_append, List.foldl_cons]
    rcases mergeVariantStep_alias es
        (l1.foldl (mergeVariantStep es)
          (es.getD i default, [(es.getD i default).confidence])) j with h | h
    · left
      rw [hname, h, variantFold_name]
    · right
      rw [halias, hfold]
      exact variantFold_aliases_mono es l2 _ h

/-- The emission loop of deduplicate_entities in closed form: the processed
set never fires on the distinct index sequence, leaving one canonical entity
per unmerged index in index order. -/
theorem dedupFold_filterMap (es : List ExtractedEntity) (mm : List (ℕ × ℕ)) :
    ∀ (l : List ℕ) (acc : List ExtractedEntity) (proc : List ℕ),
    l.Nodup → (∀ x ∈ l, x ∉ proc) →
    ((l.foldl (fun (acc : List ExtractedEntity × List ℕ) i =>
        if mmContains mm i then acc
        else if acc.2.contains i then acc
        else (acc.1 ++ [buildCanonical es mm i], acc.2 ++ [i])) (acc, proc)).1 =
      acc ++ l.filterMap (fun i => if mmContains mm i then none
        else some (buildCanonical es mm i))) := by
  intro l
  induction l with
  | nil =>
    intro acc proc _ _
    simp
  | cons i l ih =>
    intro acc proc hnd hp
    have hni : i ∉ proc := hp i (List.mem_cons_self i l)
    rw [List.nodup_cons] at hnd
    rw [List.foldl_cons, List.filterMap_cons]
    by_cases hmc : mmContains mm i = true
    · rw [if_pos hmc, hmc]
      exact ih acc proc hnd.2 (fun x hx => hp x (List.mem_cons_of_mem i hx))
    · rw [Bool.not_eq_true] at hmc
      rw [if_neg (by rw [hmc]; exact Bool.false_ne_true), hmc]
      have hcont : proc.contains i = false := by
        simpa using hni
      rw [if_neg (by rw [hcont]; exact Bool.false_ne_true)]
      rw [ih (acc ++ [buildCanonical es mm i]) (proc ++ [i]) hnd.2 ?_]
      · simp
      · intro x hx
        rw [List.mem_append]
        push_neg
        refine ⟨fun hxp => hp x (List.mem_cons_of_mem i hx) hxp, ?_⟩
        simp only [List.mem_singleton]
        intro hxi
        exact hnd.1 (hxi ▸ hx)

/-- C3: after deduplication every output entity is the canonical entity of an
unmerged index, its confidence the arithmetic mean of its own original
confidence and the confidences of every entity merged into it (each original
counted once, as a sum over the index set, hence order-independent), and
every merged name equals the canonical name or appears among the aliases;
deduplicating the AI and A.I. concept entities with no embeddings yields one
entity with confidence 0.85 and alias A.I. . -/
theorem dedup_confidence_aliases :
    (∀ (entities : List ExtractedEntity) (embeddings : List (Option (List ℚ))),
      entities.length = embeddings.length →
      ∃ out, deduplicate_entities entities embeddings = .ok out ∧
        ∀ e ∈ out, ∃ i, i < entities.length ∧
          mmContains (computeMergeMap entities embeddings) i = false ∧
          e = buildCanonical entities (computeMergeMap entities embeddings) i ∧
          (mergedInto (computeMergeMap entities embeddings) i).Nodup ∧
          i ∉ mergedInto (computeMergeMap entities embeddings) i ∧
          e.confidence =
            (∑ j in insert i (mergedInto (computeMergeMap entities embeddings) i).toFinset,
              (entities.getD j default).confidence) /
              ((insert i (mergedInto (computeMergeMap entities embeddings) i).toFinset).card :
                ℚ) ∧
          (∀ j ∈ mergedInto (computeMergeMap entities embeddings) i,
            (entities.getD j default).name = e.name ∨
            (entities.getD j default).name ∈ e.aliases)) ∧
    deduplicate_entities [entAI, entAI2] [none, none] =
      .ok [{ name := "AI", type := .CONCEPT, confidence := 17 / 20, sources := [],
             aliases := ["A.I."] }] := by
  constructor
  · intro es embs h
    rw [deduplicate_entities, if_neg (by simp [h])]
    by_cases h0 : es.length = 0
    · rw [if_pos h0]
      exact ⟨[], rfl, by simp⟩
    · rw [if_neg h0]
      simp only []
      have hfold := dedupFold_filterMap es (computeMergeMap es embs) (List.range es.length)
        [] [] (List.nodup_range es.length) (by simp)
      refine ⟨_, rfl, ?_⟩
      intro e he
      rw [hfold, List.nil_append] at he
      rcases List.mem_filterMap.mp he with ⟨i, hir, hfi⟩
      have hin : i < es.length := List.mem_range.mp hir
      by_cases hmc : mmContains (computeMergeMap es embs) i = true
      · rw [if_pos hmc] at hfi
        cases hfi
      · rw [Bool.not_eq_true] at hmc
        rw [if_neg (by rw [hmc]; exact Bool.false_ne_true)] at hfi
        have hei : e = buildCanonical es (computeMergeMap es embs) i :=
          (Option.some.inj hfi).symm
        have hnd := mergedInto_nodup es embs i
        have hni := not_mem_mergedInto (computeMergeMap es embs) i hmc
        have hspec := buildCanonical_spec es (computeMergeMap es embs) i hnd hni
        exact ⟨i, hin, hmc, hei, hnd, hni, by rw [hei]; exact hspec.1,
          fun j hj => by rw [hei]; exact hspec.2 j hj⟩
  · have hs : string_similarity "AI" "A.I." = 1 := by
      have hb : getMatchingBlocks (normalize_text "AI") (normalize_text "A.I.") =
          [(0, 0, 2), (2, 2, 0)] := by decide
      have h1 : (normalize_text "AI").length = 2 := by decide
      have h2 : (normalize_text "A.I.").length = 2 := by decide
      rw [string_similarity, ratioOf, hb, h1, h2]
      norm_num
    have hm : should_merge entAI entAI2 none none = true := by
      rw [should_merge]
      norm_num [entAI, entAI2, hs]
    have htg : typeGroups [entAI, entAI2] = [(.CONCEPT, [0, 1])] := by decide
    have hmm2 : computeMergeMap [entAI, entAI2] [none, none] = [(1, 0)] := by
      rw [computeMergeMap, htg]
      simp [mergeGroup, mergeInner, mmContains, hm]
    rw [deduplicate_entities]
    simp only [hmm2]
    have hr : List.range 2 = [0, 1] := by decide
    simp [hr, mmContains, buildCanonical, mergedInto, mergeVariantStep, appendSources,
      appendAliases, entAI, entAI2]
    norm_num

/-- C3 witness: the theorem applied to one entity against one absent
embedding, the equal-length hypothesis discharged. -/
theorem dedup_confidence_aliases_witness :
    ∃ out, deduplicate_entities [entAI] [(none : Option (List ℚ))] = .ok out ∧
      ∀ e ∈ out, ∃ i, i < [entAI].length ∧
        mmContains (computeMergeMap [entAI] [none]) i = false ∧
        e = buildCanonical [entAI] (computeMergeMap [entAI] [none]) i ∧
        (mergedInto (computeMergeMap [entAI] [none]) i).Nodup ∧
        i ∉ mergedInto (computeMergeMap [entAI] [none]) i ∧
        e.confidence =
          (∑ j in insert i (mergedInto (computeMergeMap [entAI] [none]) i).toFinset,
            ([entAI].getD j default).confidence) /
            ((insert i (mergedInto (computeMergeMap [entAI] [none]) i).toFinset).card : ℚ) ∧
        (∀ j ∈ mergedInto (computeMergeMap [entAI] [none]) i,
          ([entAI].getD j default).name = e.name ∨
          ([entAI].getD j default).name ∈ e.aliases) :=
  dedup_confidence_aliases.1 [entAI] [none] rfl
